import Mathlib

/-!
Verification of the OSM railway conversion pipeline.

This file gives a shallow embedding of the geometry-assembly and
simplification stages of the pipeline and proves the spec's testable
properties about them.

Coordinates are modelled as pairs of rationals: the source compares
coordinates by exact floating-point equality and every floating-point
value is a rational, so exact rational equality is a faithful model of
the equality tests the source performs.

Sources embedded here:
- `src/4_assign_coordinates_to_ways.py` (way materializer)
- `src/8_combine_railway_polylines.py` (route assembler)
- `src/10_douglas_peucker_downsample.py` (reprojector and simplifier)

The line-merging walk (`shapely.ops.linemerge`), the Douglas-Peucker
point reduction (`shapely` `simplify`) and the planar projection
(`pyproj`) are external library calls in the source; they are modelled
from the spec's algorithm descriptions (sections 4.3, 4.5, 4.4), as
noted on each such definition.
-/

/-- A coordinate: a (longitude, latitude) pair, or an (x, y) pair after
projection. -/
abbrev Pt : Type := ℚ × ℚ

/-- A point sequence, as stored under a GeoJSON "coordinates" key of a
LineString. -/
abbrev Line : Type := List Pt

/-- A GeoJSON geometry as used by the pipeline. -/
inductive Geometry : Type where
  | point : Pt → Geometry
  | lineString : Line → Geometry
  | multiLineString : List Line → Geometry
  deriving DecidableEq

/-! ## Way materializer (`src/4_assign_coordinates_to_ways.py`)

`update_way_coordinates` iterates over the features of a ways file.  For
each feature it reads `node_ids`, collects the coordinates of the ids
present in the `node_coords` dictionary, and replaces the geometry with
a Point (one resolved coordinate) or a LineString (two or more); with no
ids or no resolved coordinates the feature is kept unchanged. -/

/-- A way feature as read by `update_way_coordinates`: its `node_ids`
property and its (placeholder) geometry. -/
structure WayFeature : Type where
  node_ids : List Int
  geometry : Geometry
  deriving DecidableEq

/-- The per-feature body of the loop in `update_way_coordinates`
(src/4_assign_coordinates_to_ways.py lines 109-137).  `node_coords` is
the node-id → coordinate dictionary. -/
def updateWayFeature (node_coords : Int → Option Pt) (f : WayFeature) :
    WayFeature :=
  if f.node_ids = [] then f
  else
    match f.node_ids.filterMap node_coords with
    | [] => f
    | [c] => { f with geometry := Geometry.point c }
    | c :: c' :: cs =>
        { f with geometry := Geometry.lineString (c :: c' :: cs) }

/-- `update_way_coordinates` applied to the feature list of a ways file:
every feature is updated by the loop body and appended. -/
def update_way_coordinates (node_coords : Int → Option Pt)
    (features : List WayFeature) : List WayFeature :=
  features.map (updateWayFeature node_coords)

/-- The ids of `f.node_ids` that resolve in the dictionary. -/
def resolvedIds (node_coords : Int → Option Pt) (f : WayFeature) :
    List Int :=
  f.node_ids.filter (fun i => (node_coords i).isSome)

/-! ## Route assembler (`src/8_combine_railway_polylines.py`)

`combine_polylines_for_relation` reads the relation's `member_ids`,
keeps the members present in the way lookup whose geometry is a
LineString with at least 2 points, and hands those point sequences to
`shapely.ops.linemerge`; a single merged line is returned as a
LineString, several as a MultiLineString, and on an exception or an
unexpected merged geometry type the original qualifying sequences are
returned unmerged as a MultiLineString.

`linemerge` itself is external library code; `lineMergeModel` below is
modelled from the spec (section 4.3 steps 1-3): repeatedly start a
chain at the first unused way, greedily extend it at either end by the
first unused way sharing an endpoint (reversing as needed), and emit
each maximal chain as one strand. -/

/-- The two endpoints of a point sequence (first and last point), as a
list so that shared endpoints can be counted with multiplicity.  Empty
for an empty sequence. -/
def lineEnds (l : Line) : List Pt :=
  match l.head?, l.getLast? with
  | some a, some b => [a, b]
  | _, _ => []

/-- The number of occurrences of the coordinate `x` in a list of
coordinates. -/
def ptCount (l : List Pt) (x : Pt) : ℕ :=
  l.countP (fun y => decide (y = x))

/-- Total number of way-ends incident to the point `x` over a list of
point sequences: the degree of `x` in the undirected multigraph of
spec 4.3 step 1. -/
def endDegree (ls : List Line) (x : Pt) : ℕ :=
  ptCount ((ls.map lineEnds).flatten) x

/-- Modelled from the spec (4.3 step 2): orient an unused way so that
its point sequence starts at the chain endpoint `q` being extended,
reversing it if it matches with its last point. -/
def orientFrom (q : Pt) (e : Line) : Line :=
  if e.head? = some q then e else e.reverse

/-- Modelled from the spec (4.3 steps 2 and tie-break): find the first
unused way whose first or last point equals `q`; return it oriented to
start at `q`, together with the remaining unused ways. -/
def findMatch (q : Pt) : List Line → Option (Line × List Line)
  | [] => none
  | e :: rest =>
      if e.head? = some q ∨ e.getLast? = some q then
        some (orientFrom q e, rest)
      else
        match findMatch q rest with
        | some (f, rest') => some (f, e :: rest')
        | none => none

/-- Modelled from the spec (4.3 step 2): one extension step of the
greedy walk — extend the chain at its last point if possible, otherwise
at its first point, consuming the matched way. -/
def growStep (chain : Line) (rem : List Line) :
    Option (Line × List Line) :=
  match chain.getLast? with
  | none => none
  | some q =>
      match findMatch q rem with
      | some (f, rest) => some (chain ++ f.tail, rest)
      | none =>
          match chain.head? with
          | none => none
          | some p =>
              match findMatch p rem with
              | some (f, rest) => some (f.reverse.dropLast ++ chain, rest)
              | none => none

/-- Modelled from the spec (4.3 step 2): run extension steps until no
further match exists at either end.  `fuel` bounds the number of steps;
each step consumes one unused way, so `rem.length` steps always
suffice. -/
def growChain : ℕ → Line → List Line → Line × List Line
  | 0, chain, rem => (chain, rem)
  | n + 1, chain, rem =>
      match growStep chain rem with
      | some (chain', rem') => growChain n chain' rem'
      | none => (chain, rem)

/-- Modelled from the spec (4.3 steps 2-3): repeatedly start a chain at
the first unused way and grow it maximally; each resulting chain is one
strand.  `fuel` bounds the number of strands; each strand consumes at
least one way. -/
def mergeStrands : ℕ → List Line → List Line
  | _, [] => []
  | 0, _ :: _ => []
  | n + 1, e :: rest =>
      let res := growChain rest.length e rest
      res.1 :: mergeStrands n res.2

/-- Modelled from the spec (4.3 steps 1-3): the undirected line-merge.
Returns the list of strands in discovery order. -/
def lineMergeModel (lines : List Line) : List Line :=
  mergeStrands lines.length lines

/-- Outcome of the merge step as observed by
`combine_polylines_for_relation`: `linemerge` returned a LineString, a
MultiLineString, some other geometry type, or raised an exception. -/
inductive MergeOutcome : Type where
  | lineString : Line → MergeOutcome
  | multiLineString : List Line → MergeOutcome
  | otherGeom : MergeOutcome
  | raised : MergeOutcome
  deriving DecidableEq

/-- The merge outcome of the modelled `linemerge`: one strand is a
LineString, any other number of strands a MultiLineString. -/
def lineMergeOutcome (ls : List Line) : MergeOutcome :=
  match lineMergeModel ls with
  | [s] => MergeOutcome.lineString s
  | ss => MergeOutcome.multiLineString ss

/-- Dictionary lookup in the way lookup built by `create_way_lookup`:
the geometry stored under a way id, if present. -/
def lookupGeom (way_lookup : List (Int × Geometry)) (osm_id : Int) :
    Option Geometry :=
  (way_lookup.find? (fun kv => kv.1 = osm_id)).map (fun kv => kv.2)

/-- The qualifying point sequences collected by
`combine_polylines_for_relation` (lines 65-77): members present in the
way lookup whose geometry is a LineString with at least 2 points, in
member order. -/
def qualifyingLines (member_ids : List Int)
    (way_lookup : List (Int × Geometry)) : List Line :=
  member_ids.filterMap (fun mid =>
    match lookupGeom way_lookup mid with
    | some (Geometry.lineString coords) =>
        if 2 ≤ coords.length then some coords else none
    | _ => none)

/-- `combine_polylines_for_relation` with the merge step abstracted:
`merge` stands for the call to `linemerge` together with the inspection
of the resulting geometry type (lines 82-100). -/
def combineWith (merge : List Line → MergeOutcome)
    (member_ids : List Int) (way_lookup : List (Int × Geometry)) :
    Option Geometry :=
  if member_ids = [] then none
  else
    match qualifyingLines member_ids way_lookup with
    | [] => none
    | l :: ls =>
        match merge (l :: ls) with
        | MergeOutcome.lineString s => some (Geometry.lineString s)
        | MergeOutcome.multiLineString ss =>
            some (Geometry.multiLineString ss)
        | MergeOutcome.otherGeom =>
            some (Geometry.multiLineString (l :: ls))
        | MergeOutcome.raised =>
            some (Geometry.multiLineString (l :: ls))

/-- `combine_polylines_for_relation` (lines 49-100), with the external
`linemerge` replaced by its spec model. -/
def combine_polylines_for_relation (member_ids : List Int)
    (way_lookup : List (Int × Geometry)) : Option Geometry :=
  combineWith lineMergeOutcome member_ids way_lookup

/-- An output feature of `8_combine_railway_polylines.py`, restricted to
the fields the pipeline itself sets: the carried-through `osm_id`, the
combined geometry, and the assembly metadata `combined_way_count` and
`source`. -/
structure RailFeature : Type where
  osm_id : Int
  geometry : Geometry
  combined_way_count : ℕ
  source : String
  deriving DecidableEq

/-- `process_railway_relations` (lines 103-155): combine each relation's
polylines; for every relation that yields a geometry, emit a feature
with `combined_way_count = len(member_ids)` and record as used every
member id present in the way lookup.  A relation is given as
`(osm_id, member_ids)`.  Returns the features and the used way ids. -/
def process_railway_relations (relations : List (Int × List Int))
    (way_lookup : List (Int × Geometry)) :
    List RailFeature × List Int :=
  match relations with
  | [] => ([], [])
  | (rid, mids) :: rs =>
      let rest := process_railway_relations rs way_lookup
      match combine_polylines_for_relation mids way_lookup with
      | some g =>
          (⟨rid, g, mids.length, "relation"⟩ :: rest.1,
           mids.filter (fun mid => (lookupGeom way_lookup mid).isSome)
             ++ rest.2)
      | none => rest

/-- `process_standalone_ways` (lines 158-193): every way of the lookup
whose id is not among the used way ids and whose geometry is a
LineString with at least 2 points becomes its own standalone feature
with `combined_way_count = 1`. -/
def process_standalone_ways (way_lookup : List (Int × Geometry))
    (used_way_ids : List Int) : List RailFeature :=
  way_lookup.filterMap (fun kv =>
    if kv.1 ∈ used_way_ids then none
    else
      match kv.2 with
      | Geometry.lineString coords =>
          if 2 ≤ coords.length then
            some ⟨kv.1, Geometry.lineString coords, 1, "standalone_way"⟩
          else none
      | _ => none)

/-! ## Connectivity of the endpoint-matching multigraph (spec 4.3)

The spec's notion of connected components of the qualifying ways under
exact endpoint matching, used to state the strand-count properties. -/

/-- Two point sequences touch when they share an endpoint (exact
coordinate equality, spec 4.3 step 1). -/
def Touches (a b : Line) : Prop :=
  ∃ x ∈ lineEnds a, x ∈ lineEnds b

instance (a b : Line) : Decidable (Touches a b) := by
  unfold Touches; infer_instance

/-- One step of endpoint connectivity within the list `ls`. -/
def TouchesIn (ls : List Line) (a b : Line) : Prop :=
  a ∈ ls ∧ b ∈ ls ∧ Touches a b

instance (ls : List Line) (a b : Line) : Decidable (TouchesIn ls a b) := by
  unfold TouchesIn; infer_instance

/-- Endpoint connectivity within the list `ls`: the reflexive-transitive
closure of sharing an endpoint. -/
def ConnIn (ls : List Line) (a b : Line) : Prop :=
  Relation.ReflTransGen (TouchesIn ls) a b

/-- Two groups of ways are apart when no way of one shares an endpoint
with a way of the other. -/
def PartsApart (p q : List Line) : Prop :=
  ∀ a ∈ p, ∀ b ∈ q, ¬Touches a b

instance (p q : List Line) : Decidable (PartsApart p q) := by
  unfold PartsApart; infer_instance

/-- `parts` lists the connected components of `lines` under exact
endpoint matching: it partitions `lines` (up to order), each part is
nonempty and internally connected, and distinct parts share no
endpoint. -/
def IsComponentPartition (lines : List Line)
    (parts : List (List Line)) : Prop :=
  lines.Perm parts.flatten ∧
  (∀ p ∈ parts, p ≠ []) ∧
  (∀ p ∈ parts, ∀ a ∈ p, ∀ b ∈ p, ConnIn p a b) ∧
  parts.Pairwise PartsApart

/-- No branch points: every coordinate is an endpoint of at most two of
the ways (counted with multiplicity). -/
def NoBranchPts (lines : List Line) : Prop :=
  ∀ x : Pt, endDegree lines x ≤ 2

/-- The number of ends the unordered pair `{u, v}` contributes at `x`. -/
def pairCount (u v x : Pt) : ℕ :=
  (if u = x then 1 else 0) + (if v = x then 1 else 0)

/-- Invariant of the greedy merge walk (spec 4.3 step 2).  `lines` is
the full way list of the current strand search, `e` its first way,
`chain` the chain built so far, `consumed` the ways already used (in
original orientation) and `rem` the unused ways. -/
structure WalkInv (lines : List Line) (e chain : Line)
    (consumed rem : List Line) : Prop where
  perm : lines.Perm (consumed ++ rem)
  chain_ne : chain ≠ []
  e_mem : e ∈ consumed
  bnd_le : ∀ x, ptCount (lineEnds chain) x ≤ endDegree consumed x
  sat : ∀ x, ptCount (lineEnds chain) x = 0 →
    endDegree consumed x = 0 ∨ endDegree rem x = 0
  conn : ∀ f ∈ consumed, ConnIn lines e f

/-! ## Reprojector and simplifier (`src/10_douglas_peucker_downsample.py`)

`transform_coordinates` / `transform_coordinates_back` map a fixed
coordinate transformer over every coordinate of a LineString or
MultiLineString, leaving any other geometry untouched.  The transformer
itself is `pyproj` library code, so it is a parameter here; spec 4.4
says forward and inverse are exact inverses up to floating-point
precision.

`simplify_geometry` applies shapely's Douglas-Peucker `simplify`.  That
call is external library code; `douglasPeucker` below is modelled from
the spec (section 4.5): find the interior point of maximum
perpendicular distance from the endpoint chord; if that distance is at
most the tolerance collapse the interval to the two endpoints,
otherwise recurse on the two halves and concatenate, deduplicating the
shared split point.  Distances are compared squared, which is exact in
ℚ: for d, t ≥ 0, d ≤ t iff d² ≤ t², and a negative tolerance never
collapses (matching d ≤ t being false for d ≥ 0 > t). -/

/-- First coordinate of a sequence ((0,0) default, never used on the
paths that matter). -/
def hd (l : Line) : Pt := l.headD (0, 0)

/-- Last coordinate of a sequence. -/
def lst (l : Line) : Pt := (l.getLast?).getD (0, 0)

/-- Squared euclidean distance. -/
def distSq (a b : Pt) : ℚ := (b.1 - a.1) ^ 2 + (b.2 - a.2) ^ 2

/-- Twice the signed area of the triangle (a, b, p): the numerator of
the perpendicular distance of `p` from the chord a-b. -/
def crossArea (p a b : Pt) : ℚ :=
  (b.1 - a.1) * (p.2 - a.2) - (b.2 - a.2) * (p.1 - a.1)

/-- Modelled from the spec (4.5): squared perpendicular distance of `p`
from the chord a-b (distance to `a` itself for a degenerate chord). -/
def perpDistSq (p a b : Pt) : ℚ :=
  if a = b then distSq p a else (crossArea p a b) ^ 2 / distSq a b

/-- Index and value of the first maximum of a list of distances
(deterministic first-encountered tie-break). -/
def firstMax : List ℚ → Option (ℕ × ℚ)
  | [] => none
  | v :: rest =>
      match firstMax rest with
      | none => some (0, v)
      | some (j, w) => if v < w then some (j + 1, w) else some (0, v)

/-- Modelled from the spec (4.5): the classic recursive Douglas-Peucker
reduction.  `fuel` bounds the recursion depth; `seq.length` always
suffices.  A sequence of fewer than 3 points is returned unchanged. -/
def douglasPeucker : ℕ → ℚ → Line → Line
  | 0, _, seq => seq
  | fuel + 1, tol, seq =>
      if seq.length < 3 then seq
      else
        match firstMax ((seq.tail.dropLast).map
            (fun p => perpDistSq p (hd seq) (lst seq))) with
        | none => seq
        | some (j, d) =>
            if 0 ≤ tol ∧ d ≤ tol ^ 2 then [hd seq, lst seq]
            else
              douglasPeucker fuel tol (seq.take (j + 2)) ++
                (douglasPeucker fuel tol (seq.drop (j + 1))).tail

/-- The `line.simplify` call of `simplify_geometry` together with its
`is_empty` guard: an empty simplification falls back to the original
coordinates. -/
def simplifyLine (tol : ℚ) (coords : Line) : Line :=
  if (douglasPeucker coords.length tol coords).isEmpty then coords
  else douglasPeucker coords.length tol coords

/-- `simplify_geometry` (src/10_douglas_peucker_downsample.py lines
104-150): LineStrings of fewer than 3 points pass through; otherwise
the point sequence is simplified; a MultiLineString is simplified per
constituent sequence; any other geometry passes through. -/
def simplify_geometry (g : Geometry) (tol : ℚ) : Geometry :=
  match g with
  | Geometry.lineString coords =>
      if coords.length < 3 then Geometry.lineString coords
      else Geometry.lineString (simplifyLine tol coords)
  | Geometry.multiLineString lines =>
      Geometry.multiLineString (lines.map (fun lc =>
        if lc.length < 3 then lc else simplifyLine tol lc))
  | g => g

/-- `transform_coordinates` (lines 26-62): apply the forward
transformer to every coordinate of a LineString or MultiLineString;
other geometries pass through unchanged. -/
def transform_coordinates (tr : Pt → Pt) (g : Geometry) : Geometry :=
  match g with
  | Geometry.lineString coords => Geometry.lineString (coords.map tr)
  | Geometry.multiLineString lines =>
      Geometry.multiLineString (lines.map (fun line => line.map tr))
  | g => g

/-- `transform_coordinates_back` (lines 65-101): apply the inverse
transformer to every coordinate of a LineString or MultiLineString;
other geometries pass through unchanged. -/
def transform_coordinates_back (tr : Pt → Pt) (g : Geometry) :
    Geometry :=
  match g with
  | Geometry.lineString coords => Geometry.lineString (coords.map tr)
  | Geometry.multiLineString lines =>
      Geometry.multiLineString (lines.map (fun line => line.map tr))
  | g => g

/-- `process_feature` (lines 153-173): reproject to planar units,
simplify, reproject back.  There is no error handling in the source:
the three steps are applied unconditionally. -/
def process_feature (fwd bwd : Pt → Pt) (tol : ℚ) (g : Geometry) :
    Geometry :=
  transform_coordinates_back bwd
    (simplify_geometry (transform_coordinates fwd g) tol)

/-- The geographic validity domain of the planar projection. -/
def inProjectionDomain (p : Pt) : Prop :=
  -180 ≤ p.1 ∧ p.1 ≤ 180 ∧ -90 ≤ p.2 ∧ p.2 ≤ 90

instance (p : Pt) : Decidable (inProjectionDomain p) := by
  unfold inProjectionDomain; infer_instance

/-- Modelled from the spec (4.4, error taxonomy): a planar projection
with a bounded valid domain; following the library's behaviour, an
out-of-domain coordinate yields a non-finite sentinel value rather than
raising. -/
def modelToPlanar (p : Pt) : Pt :=
  if inProjectionDomain p then (100000 * p.1, 100000 * p.2)
  else (10 ^ 9, 10 ^ 9)

/-- Modelled from the spec (4.4): the inverse planar projection. -/
def modelToGeographic (p : Pt) : Pt := (p.1 / 100000, p.2 / 100000)

theorem filterMap_length_eq_filter_isSome (g : Int → Option Pt)
    (l : List Int) :
    (l.filterMap g).length = (l.filter (fun i => (g i).isSome)).length := by
  induction l with
  | nil => rfl
  | cons a t ih =>
      by_cases h : (g a).isSome
      · obtain ⟨c, hc⟩ := Option.isSome_iff_exists.mp h
        simp [List.filterMap_cons, List.filter_cons, hc, ih]
      · rw [Option.not_isSome_iff_eq_none] at h
        simp [List.filterMap_cons, List.filter_cons, h, ih]

/-- C2.  For every way feature with a `node_ids` list, the materializer
(`update_way_coordinates`) produces: with 0 resolved node ids the
feature is left with its placeholder geometry unchanged; with exactly 1
resolved node id a Point at that coordinate; with ≥ 2 resolved node ids
a LineString whose coordinate list is exactly the resolved nodes'
coordinates in the original `node_ids` order, so its length equals the
count of resolved node ids (unresolved ids are skipped, not
interpolated). -/
theorem materialize_cases (node_coords : Int → Option Pt)
    (f : WayFeature) :
    (f.node_ids.filterMap node_coords = [] →
      updateWayFeature node_coords f = f) ∧
    (∀ c, f.node_ids.filterMap node_coords = [c] →
      updateWayFeature node_coords f =
        { f with geometry := Geometry.point c }) ∧
    (2 ≤ (f.node_ids.filterMap node_coords).length →
      updateWayFeature node_coords f =
        { f with geometry :=
            Geometry.lineString (f.node_ids.filterMap node_coords) } ∧
      (f.node_ids.filterMap node_coords).length =
        (resolvedIds node_coords f).length) := by
  by_cases hin : f.node_ids = []
  · refine ⟨fun _ => ?_, fun c hc => ?_, fun h2 => ?_⟩
    · simp [updateWayFeature, hin]
    · rw [hin] at hc; simp at hc
    · rw [hin] at h2; simp at h2
  · simp only [updateWayFeature, if_neg hin]
    refine ⟨fun h0 => ?_, fun c hc => ?_, fun h2 => ?_⟩
    · simp only [h0]
    · simp only [hc]
    · rcases hfm : f.node_ids.filterMap node_coords with _ | ⟨c, _ | ⟨c', cs⟩⟩
      · rw [hfm] at h2; simp at h2
      · rw [hfm] at h2; simp at h2
      · simp only [hfm]
        exact ⟨by simp, by
          rw [← hfm, filterMap_length_eq_filter_isSome, resolvedIds]⟩

theorem materialize_cases_witness :
    updateWayFeature
        (fun i => if i = 1 then some (1, 2)
                  else if i = 2 then some (3, 4) else none)
        ⟨[1, 5, 2], Geometry.point (0, 0)⟩ =
      ⟨[1, 5, 2], Geometry.lineString [(1, 2), (3, 4)]⟩ :=
  ((materialize_cases
      (fun i => if i = 1 then some (1, 2)
                else if i = 2 then some (3, 4) else none)
      ⟨[1, 5, 2], Geometry.point (0, 0)⟩).2.2 (by decide)).1

/-- C4.  `combine_polylines_for_relation` operates on the relation's
member list filtered to the entries whose id is present in the way
lookup with a materialized LineString geometry of at least 2 points
(Point-only ways are excluded from merging: every qualifying sequence
has at least 2 points and comes from a looked-up LineString member),
and it returns `none` exactly when there are zero qualifying
members. -/
theorem assemble_absent_iff_no_qualifying (member_ids : List Int)
    (way_lookup : List (Int × Geometry)) :
    (combine_polylines_for_relation member_ids way_lookup = none ↔
      qualifyingLines member_ids way_lookup = []) ∧
    (∀ l ∈ qualifyingLines member_ids way_lookup,
      2 ≤ l.length ∧ ∃ mid ∈ member_ids,
        lookupGeom way_lookup mid = some (Geometry.lineString l)) := by
  constructor
  · unfold combine_polylines_for_relation combineWith
    by_cases hm : member_ids = []
    · rw [if_pos hm, hm]
      simp [qualifyingLines]
    · rw [if_neg hm]
      rcases hql : qualifyingLines member_ids way_lookup with _ | ⟨l, ls⟩
      · simp
      · rcases houtcome : lineMergeOutcome (l :: ls) with s | ss | _ | _ <;>
          simp [houtcome]
  · intro l hl
    unfold qualifyingLines at hl
    rw [List.mem_filterMap] at hl
    obtain ⟨mid, hmid, hsome⟩ := hl
    rcases hg : lookupGeom way_lookup mid with _ | g
    · rw [hg] at hsome; simp at hsome
    · rcases g with c | coords | ls
      · rw [hg] at hsome; simp at hsome
      · rw [hg] at hsome
        by_cases hlen : 2 ≤ coords.length
        · simp only [if_pos hlen, Option.some_inj] at hsome
          subst hsome
          exact ⟨hlen, mid, hmid, hg⟩
        · simp [if_neg hlen] at hsome
      · rw [hg] at hsome; simp at hsome

theorem assemble_absent_iff_no_qualifying_witness :
    combine_polylines_for_relation [1, 2]
      [(1, Geometry.point (0, 0))] = none :=
  (assemble_absent_iff_no_qualifying [1, 2]
      [(1, Geometry.point (0, 0))]).1.mpr (by decide)

/-- C3.  For every relation, if the merge step fails — the line-merge
raises, or yields a geometry that is neither LineString nor
MultiLineString — `combine_polylines_for_relation` returns the fallback
MultiLineString of the original qualifying ways' point sequences in
member order, and this fallback path always succeeds (a geometry is
returned; merge failure is never fatal for the relation). -/
theorem merge_failure_fallback (merge : List Line → MergeOutcome)
    (member_ids : List Int) (way_lookup : List (Int × Geometry))
    (hq : qualifyingLines member_ids way_lookup ≠ [])
    (hfail : merge (qualifyingLines member_ids way_lookup) =
        MergeOutcome.raised ∨
      merge (qualifyingLines member_ids way_lookup) =
        MergeOutcome.otherGeom) :
    combineWith merge member_ids way_lookup =
      some (Geometry.multiLineString
        (qualifyingLines member_ids way_lookup)) := by
  unfold combineWith
  by_cases hm : member_ids = []
  · subst hm; exact absurd rfl hq
  · rw [if_neg hm]
    rcases hql : qualifyingLines member_ids way_lookup with _ | ⟨l, ls⟩
    · exact absurd hql hq
    · rw [hql] at hfail
      rcases hfail with hfail | hfail <;> simp [hfail]

theorem merge_failure_fallback_witness :
    combineWith (fun _ => MergeOutcome.raised) [1]
      [(1, Geometry.lineString [(0, 0), (1, 0)])] =
      some (Geometry.multiLineString [[(0, 0), (1, 0)]]) :=
  merge_failure_fallback (fun _ => MergeOutcome.raised) [1]
    [(1, Geometry.lineString [(0, 0), (1, 0)])]
    (by decide) (Or.inl rfl)

/-- Membership in the standalone pass output: exactly the lookup entries
whose id is unused and whose geometry is a LineString with at least 2
points, each as its own feature. -/
theorem mem_process_standalone_ways
    (way_lookup : List (Int × Geometry)) (used : List Int)
    (f : RailFeature) :
    f ∈ process_standalone_ways way_lookup used ↔
      ∃ coords, (f.osm_id, Geometry.lineString coords) ∈ way_lookup ∧
        f.osm_id ∉ used ∧ 2 ≤ coords.length ∧
        f = ⟨f.osm_id, Geometry.lineString coords, 1,
          "standalone_way"⟩ := by
  unfold process_standalone_ways
  rw [List.mem_filterMap]
  constructor
  · rintro ⟨⟨kid, kg⟩, hmem, hsome⟩
    dsimp only at hsome
    by_cases hused : kid ∈ used
    · rw [if_pos hused] at hsome; simp at hsome
    · rw [if_neg hused] at hsome
      rcases kg with c | coords | ls
      · simp at hsome
      · dsimp only at hsome
        by_cases hlen : 2 ≤ coords.length
        · rw [if_pos hlen, Option.some_inj] at hsome
          cases hsome
          exact ⟨coords, hmem, hused, hlen, rfl⟩
        · rw [if_neg hlen] at hsome; simp at hsome
      · simp at hsome
  · rintro ⟨coords, hmem, hused, hlen, hf⟩
    refine ⟨(f.osm_id, Geometry.lineString coords), hmem, ?_⟩
    dsimp only
    rw [if_neg hused, if_pos hlen, hf]

/-- The used-way-id set built by `process_railway_relations` only
contains ids that occur in some relation's member list. -/
theorem used_subset_referenced (relations : List (Int × List Int))
    (way_lookup : List (Int × Geometry)) :
    ∀ id ∈ (process_railway_relations relations way_lookup).2,
      ∃ r ∈ relations, id ∈ r.2 := by
  induction relations with
  | nil => intro id hid; simp [process_railway_relations] at hid
  | cons r rs ih =>
      intro id hid
      obtain ⟨rid, mids⟩ := r
      rw [process_railway_relations] at hid
      rcases hc : combine_polylines_for_relation mids way_lookup with
        _ | g
      · rw [hc] at hid
        obtain ⟨r', hr', hidr⟩ := ih id hid
        exact ⟨r', List.mem_cons_of_mem _ hr', hidr⟩
      · rw [hc] at hid
        rcases List.mem_append.mp hid with hid | hid
        · exact ⟨(rid, mids), List.mem_cons_self _ _,
            (List.mem_filter.mp hid).1⟩
        · obtain ⟨r', hr', hidr⟩ := ih id hid
          exact ⟨r', List.mem_cons_of_mem _ hr', hidr⟩

/-- C5 (amended).  With the consumed-way bookkeeping of
`process_railway_relations`: every consumed way id comes from some
relation's member list, so a way never referenced by any relation is
never consumed; every way never referenced by any relation *whose
stored geometry is a LineString with at least 2 points* is emitted by
the second pass as its own standalone single-LineString feature; and
every way consumed by at least one relation is excluded from the
standalone output.  (The original claim fails for never-referenced ways
whose stored geometry is not a LineString with ≥ 2 points: the second
pass silently drops those.) -/
theorem standalone_complement (relations : List (Int × List Int))
    (way_lookup : List (Int × Geometry)) :
    (∀ id ∈ (process_railway_relations relations way_lookup).2,
      ∃ r ∈ relations, id ∈ r.2) ∧
    (∀ f ∈ process_standalone_ways way_lookup
        (process_railway_relations relations way_lookup).2,
      f.osm_id ∉ (process_railway_relations relations way_lookup).2) ∧
    (∀ id coords, (id, Geometry.lineString coords) ∈ way_lookup →
      (∀ r ∈ relations, id ∉ r.2) → 2 ≤ coords.length →
      (⟨id, Geometry.lineString coords, 1, "standalone_way"⟩ :
          RailFeature) ∈
        process_standalone_ways way_lookup
          (process_railway_relations relations way_lookup).2) := by
  refine ⟨used_subset_referenced relations way_lookup, ?_, ?_⟩
  · intro f hf
    obtain ⟨coords, _, hused, _, _⟩ :=
      (mem_process_standalone_ways _ _ f).mp hf
    exact hused
  · intro id coords hmem hnoref hlen
    have hnotused :
        id ∉ (process_railway_relations relations way_lookup).2 := by
      intro hid
      obtain ⟨r, hr, hidr⟩ :=
        used_subset_referenced relations way_lookup id hid
      exact hnoref r hr hidr
    exact (mem_process_standalone_ways _ _ _).mpr
      ⟨coords, hmem, hnotused, hlen, rfl⟩

theorem standalone_complement_witness :
    (⟨7, Geometry.lineString [(0, 0), (1, 1)], 1, "standalone_way"⟩ :
        RailFeature) ∈
      process_standalone_ways
        [(7, Geometry.lineString [(0, 0), (1, 1)])]
        (process_railway_relations [(4, [9])]
          [(7, Geometry.lineString [(0, 0), (1, 1)])]).2 :=
  (standalone_complement [(4, [9])]
      [(7, Geometry.lineString [(0, 0), (1, 1)])]).2.2 7
    [(0, 0), (1, 1)] (by decide) (by decide) (by decide)

/-- C5 counterexample: way 7 is never referenced by any relation (there
are no relations at all), but its stored geometry is a Point, so the
second pass emits nothing for it — refuting "every way never referenced
by any relation is emitted by the second pass as its own standalone
single-LineString feature". -/
theorem standalone_complement_counterexample :
    (∀ r ∈ ([] : List (Int × List Int)), (7 : Int) ∉ r.2) ∧
    process_standalone_ways [(7, Geometry.point (0, 0))]
      (process_railway_relations [] [(7, Geometry.point (0, 0))]).2 =
      [] :=
  ⟨fun r hr => absurd hr (List.not_mem_nil r), by decide⟩

/-- C10.  Every relation feature emitted by `process_railway_relations`
has `combined_way_count` equal to the length of the relation's full
`member_ids` list — every member counted, whatever its type and whether
or not it is in the way lookup or qualified for merging — and every
standalone-way feature has `combined_way_count = 1`. -/
theorem combined_way_count_is_member_count
    (relations : List (Int × List Int))
    (way_lookup : List (Int × Geometry)) (used_way_ids : List Int) :
    (∀ f ∈ (process_railway_relations relations way_lookup).1,
      ∃ r ∈ relations, f.osm_id = r.1 ∧
        f.combined_way_count = r.2.length ∧
        combine_polylines_for_relation r.2 way_lookup ≠ none) ∧
    (∀ f ∈ process_standalone_ways way_lookup used_way_ids,
      f.combined_way_count = 1) := by
  constructor
  · induction relations with
    | nil => intro f hf; simp [process_railway_relations] at hf
    | cons r rs ih =>
        intro f hf
        obtain ⟨rid, mids⟩ := r
        rw [process_railway_relations] at hf
        rcases hc : combine_polylines_for_relation mids way_lookup with
          _ | g
        · rw [hc] at hf
          obtain ⟨r', hr', hprop⟩ := ih f hf
          exact ⟨r', List.mem_cons_of_mem _ hr', hprop⟩
        · rw [hc] at hf
          rcases List.mem_cons.mp hf with hf | hf
          · subst hf
            exact ⟨(rid, mids), List.mem_cons_self _ _,
              rfl, rfl, by rw [hc]; exact fun h => Option.noConfusion h⟩
          · obtain ⟨r', hr', hprop⟩ := ih f hf
            exact ⟨r', List.mem_cons_of_mem _ hr', hprop⟩
  · intro f hf
    unfold process_standalone_ways at hf
    rw [List.mem_filterMap] at hf
    obtain ⟨⟨kid, kg⟩, hmem, hsome⟩ := hf
    dsimp only at hsome
    by_cases hused : kid ∈ used_way_ids
    · rw [if_pos hused] at hsome; simp at hsome
    · rw [if_neg hused] at hsome
      rcases kg with c | coords | ls
      · simp at hsome
      · dsimp only at hsome
        by_cases hlen : 2 ≤ coords.length
        · rw [if_pos hlen, Option.some_inj] at hsome
          rw [← hsome]
        · rw [if_neg hlen] at hsome; simp at hsome
      · simp at hsome

theorem combined_way_count_is_member_count_witness :
    ∃ r ∈ [((5 : Int), [(1 : Int), 2, 9])],
      (⟨5, Geometry.lineString [(0, 0), (1, 0)], 3, "relation"⟩ :
        RailFeature).osm_id = r.1 ∧
      (⟨5, Geometry.lineString [(0, 0), (1, 0)], 3, "relation"⟩ :
        RailFeature).combined_way_count = r.2.length ∧
      combine_polylines_for_relation r.2
        [(1, Geometry.lineString [(0, 0), (1, 0)])] ≠ none :=
  (combined_way_count_is_member_count [(5, [1, 2, 9])]
      [(1, Geometry.lineString [(0, 0), (1, 0)])] []).1
    ⟨5, Geometry.lineString [(0, 0), (1, 0)], 3, "relation"⟩ (by decide)

theorem ptCount_nil (x : Pt) : ptCount [] x = 0 := rfl

theorem ptCount_cons (a : Pt) (l : List Pt) (x : Pt) :
    ptCount (a :: l) x = (if a = x then 1 else 0) + ptCount l x := by
  unfold ptCount
  rw [List.countP_cons]
  by_cases h : a = x <;> simp [h, Nat.add_comm]

theorem ptCount_append (l₁ l₂ : List Pt) (x : Pt) :
    ptCount (l₁ ++ l₂) x = ptCount l₁ x + ptCount l₂ x := by
  unfold ptCount
  rw [List.countP_append]

theorem ptCount_perm {l₁ l₂ : List Pt} (h : l₁.Perm l₂) (x : Pt) :
    ptCount l₁ x = ptCount l₂ x := by
  unfold ptCount
  exact h.countP_eq _

theorem ptCount_pos_iff (l : List Pt) (x : Pt) :
    0 < ptCount l x ↔ x ∈ l := by
  unfold ptCount
  rw [List.countP_pos_iff]
  constructor
  · rintro ⟨a, ha, hax⟩
    rw [decide_eq_true_eq] at hax
    rw [← hax]; exact ha
  · intro hx; exact ⟨x, hx, by simp⟩

theorem count_pair (u v x : Pt) :
    ptCount [u, v] x = pairCount u v x := by
  rw [ptCount_cons, ptCount_cons, ptCount_nil, pairCount]
  omega

theorem lineEnds_eq_of (l : Line) (a b : Pt) (ha : l.head? = some a)
    (hb : l.getLast? = some b) : lineEnds l = [a, b] := by
  unfold lineEnds; rw [ha, hb]

theorem mem_lineEnds_iff (l : Line) (x : Pt) :
    x ∈ lineEnds l ↔ l.head? = some x ∨ l.getLast? = some x := by
  cases l with
  | nil => simp [lineEnds]
  | cons a t =>
      rcases hlast : (a :: t).getLast? with _ | b
      · simp at hlast
      · rw [lineEnds_eq_of (a :: t) a b rfl hlast]
        simp [hlast]
        tauto

theorem touches_symm {a b : Line} (h : Touches a b) : Touches b a := by
  obtain ⟨x, hxa, hxb⟩ := h
  exact ⟨x, hxb, hxa⟩

theorem touches_self {l : Line} (hl : l ≠ []) : Touches l l := by
  rcases hh : l.head? with _ | a
  · cases l with
    | nil => exact absurd rfl hl
    | cons c t => simp at hh
  · have : a ∈ lineEnds l := (mem_lineEnds_iff l a).mpr (Or.inl hh)
    exact ⟨a, this, this⟩

theorem endDegree_nil (x : Pt) : endDegree [] x = 0 := rfl

theorem endDegree_cons (l : Line) (ls : List Line) (x : Pt) :
    endDegree (l :: ls) x = ptCount (lineEnds l) x + endDegree ls x := by
  unfold endDegree
  rw [List.map_cons, List.flatten_cons, ptCount_append]

theorem endDegree_append (ls₁ ls₂ : List Line) (x : Pt) :
    endDegree (ls₁ ++ ls₂) x = endDegree ls₁ x + endDegree ls₂ x := by
  unfold endDegree
  rw [List.map_append, List.flatten_append, ptCount_append]

theorem endDegree_perm {ls₁ ls₂ : List Line} (h : ls₁.Perm ls₂)
    (x : Pt) : endDegree ls₁ x = endDegree ls₂ x := by
  unfold endDegree
  exact ptCount_perm ((h.map lineEnds).flatten) x

theorem endDegree_pos_of_mem {ls : List Line} {l : Line} {x : Pt}
    (hl : l ∈ ls) (hx : x ∈ lineEnds l) : 0 < endDegree ls x := by
  unfold endDegree
  rw [ptCount_pos_iff]
  exact List.mem_flatten.mpr ⟨lineEnds l, List.mem_map_of_mem _ hl, hx⟩

theorem exists_mem_of_endDegree_pos {ls : List Line} {x : Pt}
    (h : 0 < endDegree ls x) : ∃ l ∈ ls, x ∈ lineEnds l := by
  unfold endDegree at h
  rw [ptCount_pos_iff, List.mem_flatten] at h
  obtain ⟨es, hes, hx⟩ := h
  obtain ⟨l, hl, rfl⟩ := List.mem_map.mp hes
  exact ⟨l, hl, hx⟩

theorem noBranchPts_of_forall_mem {lines : List Line}
    (h : ∀ p ∈ (lines.map lineEnds).flatten, endDegree lines p ≤ 2) :
    NoBranchPts lines := by
  intro x
  by_cases hx : 0 < endDegree lines x
  · obtain ⟨l, hl, hxl⟩ := exists_mem_of_endDegree_pos hx
    exact h x (List.mem_flatten.mpr ⟨lineEnds l,
      List.mem_map_of_mem _ hl, hxl⟩)
  · omega

theorem head?_append_of_ne_nil {α : Type} (l₁ l₂ : List α)
    (h : l₁ ≠ []) : (l₁ ++ l₂).head? = l₁.head? := by
  cases l₁ with
  | nil => exact absurd rfl h
  | cons a t => rfl

theorem getLast?_append_of_ne_nil {α : Type} (l₁ l₂ : List α)
    (h : l₂ ≠ []) : (l₁ ++ l₂).getLast? = l₂.getLast? := by
  rw [List.getLast?_append]
  rcases hl : l₂.getLast? with _ | b
  · exact absurd (List.getLast?_eq_none_iff.mp hl) h
  · rfl

theorem tail_getLast? {α : Type} (l : List α) (h : l.tail ≠ []) :
    l.tail.getLast? = l.getLast? := by
  cases l with
  | nil => exact absurd rfl h
  | cons a t =>
      cases t with
      | nil => exact absurd rfl h
      | cons b u => exact (List.getLast?_cons_cons).symm

theorem dropLast_head? {α : Type} (l : List α) (h : 2 ≤ l.length) :
    l.dropLast.head? = l.head? := by
  cases l with
  | nil => simp at h
  | cons a t =>
      cases t with
      | nil => simp at h
      | cons b u => rw [List.dropLast_cons₂]; rfl

theorem exists_getLast?_of_ne_nil {α : Type} (l : List α)
    (h : l ≠ []) : ∃ b, l.getLast? = some b := by
  rcases hl : l.getLast? with _ | b
  · exact absurd (List.getLast?_eq_none_iff.mp hl) h
  · exact ⟨b, rfl⟩

theorem exists_head?_of_ne_nil {α : Type} (l : List α)
    (h : l ≠ []) : ∃ a, l.head? = some a := by
  rcases hl : l.head? with _ | a
  · exact absurd (List.head?_eq_none_iff.mp hl) h
  · exact ⟨a, rfl⟩

theorem lineEnds_reverse_count (l : Line) (x : Pt) :
    ptCount (lineEnds l.reverse) x = ptCount (lineEnds l) x := by
  cases l with
  | nil => rfl
  | cons a t =>
      obtain ⟨b, hlast⟩ := exists_getLast?_of_ne_nil (a :: t) (by simp)
      have h1 : lineEnds (a :: t) = [a, b] :=
        lineEnds_eq_of _ a b rfl hlast
      have h2 : lineEnds ((a :: t).reverse) = [b, a] :=
        lineEnds_eq_of _ b a
          (by rw [List.head?_reverse, hlast])
          (by rw [List.getLast?_reverse]; rfl)
      rw [h1, h2, count_pair, count_pair, pairCount, pairCount]
      omega

theorem orientFrom_head {q : Pt} {l : Line}
    (h : l.head? = some q ∨ l.getLast? = some q) :
    (orientFrom q l).head? = some q := by
  unfold orientFrom
  by_cases hh : l.head? = some q
  · rw [if_pos hh]; exact hh
  · rw [if_neg hh, List.head?_reverse]
    rcases h with h | h
    · exact absurd h hh
    · exact h

theorem orientFrom_length (q : Pt) (l : Line) :
    (orientFrom q l).length = l.length := by
  unfold orientFrom
  by_cases hh : l.head? = some q
  · rw [if_pos hh]
  · rw [if_neg hh, List.length_reverse]

theorem orientFrom_ends_count (q : Pt) (l : Line) (x : Pt) :
    ptCount (lineEnds (orientFrom q l)) x = ptCount (lineEnds l) x := by
  unfold orientFrom
  by_cases hh : l.head? = some q
  · rw [if_pos hh]
  · rw [if_neg hh]
    exact lineEnds_reverse_count l x

theorem findMatch_none_iff (q : Pt) (rem : List Line) :
    findMatch q rem = none ↔
      ∀ f ∈ rem, ¬(f.head? = some q ∨ f.getLast? = some q) := by
  induction rem with
  | nil => simp [findMatch]
  | cons e rest ih =>
      unfold findMatch
      by_cases he : e.head? = some q ∨ e.getLast? = some q
      · rw [if_pos he]
        constructor
        · intro h; exact absurd h (by simp)
        · intro h; exact absurd he (h e (List.mem_cons_self _ _))
      · rw [if_neg he]
        rcases hrec : findMatch q rest with _ | ⟨f, rest'⟩
        · constructor
          · intro _ g hg
            rcases List.mem_cons.mp hg with hg | hg
            · rw [hg]; exact he
            · exact (ih.mp hrec) g hg
          · intro _; rfl
        · constructor
          · intro h; exact absurd h (by simp)
          · intro h
            have : findMatch q rest = none :=
              ih.mpr (fun g hg => h g (List.mem_cons_of_mem _ hg))
            rw [hrec] at this
            exact absurd this (by simp)

theorem findMatch_some_spec {q : Pt} {rem : List Line} {f' : Line}
    {rest : List Line} (h : findMatch q rem = some (f', rest)) :
    ∃ f, f ∈ rem ∧ (f.head? = some q ∨ f.getLast? = some q) ∧
      f' = orientFrom q f ∧ rem.Perm (f :: rest) ∧
      rem.length = rest.length + 1 := by
  induction rem generalizing f' rest with
  | nil => simp [findMatch] at h
  | cons e tail ih =>
      unfold findMatch at h
      by_cases he : e.head? = some q ∨ e.getLast? = some q
      · rw [if_pos he] at h
        have h1 : orientFrom q e = f' ∧ tail = rest := by
          have := Option.some_inj.mp h
          exact ⟨congrArg Prod.fst this, congrArg Prod.snd this⟩
        obtain ⟨h1, h2⟩ := h1
        subst h1; subst h2
        exact ⟨e, List.mem_cons_self _ _, he, rfl, List.Perm.refl _,
          by simp⟩
      · rw [if_neg he] at h
        rcases hrec : findMatch q tail with _ | ⟨g, rest'⟩
        · rw [hrec] at h; exact absurd h (by simp)
        · rw [hrec] at h
          have h1 : g = f' ∧ e :: rest' = rest := by
            have := Option.some_inj.mp h
            exact ⟨congrArg Prod.fst this, congrArg Prod.snd this⟩
          obtain ⟨h1, h2⟩ := h1
          subst h1; subst h2
          obtain ⟨f, hf, hfm, hfor, hperm, hlen⟩ := ih hrec
          refine ⟨f, List.mem_cons_of_mem _ hf, hfm, hfor, ?_, ?_⟩
          · exact ((hperm.cons e).trans (List.Perm.swap f e rest'))
          · simp [hlen]

theorem step_counts
    {lines consumed rem rest : List Line} {f : Line} {u v w : Pt}
    (hNB : NoBranchPts lines)
    (hperm : lines.Perm (consumed ++ rem))
    (hrem : rem.Perm (f :: rest))
    (hf : ∀ x, ptCount (lineEnds f) x = pairCount v w x)
    (hble : ∀ x, pairCount u v x ≤ endDegree consumed x)
    (hsat : ∀ x, pairCount u v x = 0 →
      endDegree consumed x = 0 ∨ endDegree rem x = 0) :
    (∀ x, pairCount u w x ≤ endDegree (consumed ++ [f]) x) ∧
    (∀ x, pairCount u w x = 0 →
      endDegree (consumed ++ [f]) x = 0 ∨ endDegree rest x = 0) := by
  have hdc : ∀ x, endDegree (consumed ++ [f]) x =
      endDegree consumed x + pairCount v w x := by
    intro x
    rw [endDegree_append, endDegree_cons, endDegree_nil, hf]
    omega
  have hdr : ∀ x, endDegree rem x = pairCount v w x + endDegree rest x := by
    intro x
    rw [endDegree_perm hrem, endDegree_cons, hf]
  have hlineseq : ∀ x, endDegree lines x =
      endDegree consumed x + endDegree rem x := by
    intro x
    rw [endDegree_perm hperm, endDegree_append]
  constructor
  · intro x
    have h1 := hble x
    rw [hdc]
    unfold pairCount at h1 ⊢
    by_cases hu : u = x <;> by_cases hv : v = x <;>
      by_cases hw : w = x <;>
      simp only [hu, hv, hw, if_pos, if_neg, if_true, if_false] at h1 ⊢ <;>
      omega
  · intro x h0
    have huu : ¬u = x ∧ ¬w = x := by
      unfold pairCount at h0
      by_cases hu : u = x <;> by_cases hw : w = x <;>
        simp only [hu, hw] at h0 ⊢ <;> simp_all
    obtain ⟨hu, hw⟩ := huu
    by_cases hv : v = x
    · right
      have h1 : 1 ≤ endDegree consumed x := by
        have := hble x
        unfold pairCount at this
        rw [if_neg hu, if_pos hv] at this
        omega
      have h2 : endDegree rem x = 1 + endDegree rest x := by
        rw [hdr]
        unfold pairCount
        rw [if_pos hv, if_neg hw]
      have h3 : endDegree lines x ≤ 2 := hNB x
      rw [hlineseq] at h3
      omega
    · have h0' : pairCount u v x = 0 := by
        unfold pairCount
        rw [if_neg hu, if_neg hv]
      rcases hsat x h0' with hc | hr
      · left
        rw [hdc, hc]
        unfold pairCount
        rw [if_neg hv, if_neg hw]
      · right
        rw [hdr] at hr
        omega

theorem pairCount_comm (u v x : Pt) :
    pairCount u v x = pairCount v u x := by
  unfold pairCount
  omega

theorem growStep_some_inv
    {lines : List Line} {e chain : Line} {consumed rem : List Line}
    {chain' : Line} {rem' : List Line}
    (hNB : NoBranchPts lines) (hlens : ∀ l ∈ lines, 2 ≤ l.length)
    (inv : WalkInv lines e chain consumed rem)
    (hstep : growStep chain rem = some (chain', rem')) :
    ∃ f, rem.Perm (f :: rem') ∧
      WalkInv lines e chain' (consumed ++ [f]) rem' ∧
      rem.length = rem'.length + 1 := by
  obtain ⟨h, hh⟩ := exists_head?_of_ne_nil chain inv.chain_ne
  obtain ⟨q, hq⟩ := exists_getLast?_of_ne_nil chain inv.chain_ne
  have hchain_ends : lineEnds chain = [h, q] :=
    lineEnds_eq_of _ _ _ hh hq
  unfold growStep at hstep
  simp only [hq] at hstep
  rcases hfm : findMatch q rem with _ | ⟨f', rest⟩
  · -- no match at the back; the step extended at the front
    simp only [hfm, hh] at hstep
    rcases hfm2 : findMatch h rem with _ | ⟨f', rest⟩
    · simp only [hfm2] at hstep; exact absurd hstep (by simp)
    · simp only [hfm2] at hstep
      have hpair := Option.some_inj.mp hstep
      have hceq : f'.reverse.dropLast ++ chain = chain' :=
        congrArg Prod.fst hpair
      have hreq : rest = rem' := congrArg Prod.snd hpair
      subst hreq
      obtain ⟨f, hfmem, hfmatch, hforient, hfperm, hflen⟩ :=
        findMatch_some_spec hfm2
      have hfl : f ∈ lines :=
        inv.perm.mem_iff.mpr (List.mem_append.mpr (Or.inr hfmem))
      have hflen2 : 2 ≤ f.length := hlens f hfl
      have hf'len : 2 ≤ f'.length := by
        rw [hforient, orientFrom_length]; exact hflen2
      have hf'ne : f' ≠ [] := List.ne_nil_of_length_pos (by omega)
      have hf'head : f'.head? = some h := by
        rw [hforient]; exact orientFrom_head hfmatch
      obtain ⟨r, hr⟩ := exists_getLast?_of_ne_nil f' hf'ne
      have hxs_ne : f'.reverse.dropLast ≠ [] := by
        apply List.ne_nil_of_length_pos
        rw [List.length_dropLast, List.length_reverse]
        omega
      have hchead : chain'.head? = some r := by
        rw [← hceq, head?_append_of_ne_nil _ _ hxs_ne,
          dropLast_head? _ (by rw [List.length_reverse]; omega),
          List.head?_reverse]
        exact hr
      have hclast : chain'.getLast? = some q := by
        rw [← hceq, getLast?_append_of_ne_nil _ _ inv.chain_ne, hq]
      have hchain'_ends : lineEnds chain' = [r, q] :=
        lineEnds_eq_of _ _ _ hchead hclast
      have hf_ends : ∀ x, ptCount (lineEnds f) x = pairCount h r x := by
        intro x
        have h1 : ptCount (lineEnds f') x = ptCount (lineEnds f) x := by
          rw [hforient]; exact orientFrom_ends_count h f x
        rw [← h1, lineEnds_eq_of f' h r hf'head hr, count_pair]
      have hble' : ∀ x, pairCount q h x ≤ endDegree consumed x := by
        intro x
        rw [pairCount_comm]
        have := inv.bnd_le x
        rw [hchain_ends, count_pair] at this
        exact this
      have hsat' : ∀ x, pairCount q h x = 0 →
          endDegree consumed x = 0 ∨ endDegree rem x = 0 := by
        intro x hx
        rw [pairCount_comm] at hx
        apply inv.sat
        rw [hchain_ends, count_pair]
        exact hx
      obtain ⟨hble2, hsat2⟩ :=
        step_counts hNB inv.perm hfperm hf_ends hble' hsat'
      have hdege : 0 < endDegree consumed h := by
        apply lt_of_lt_of_le _ (inv.bnd_le h)
        rw [hchain_ends, count_pair]
        unfold pairCount
        simp
      obtain ⟨g, hgmem, hgh⟩ := exists_mem_of_endDegree_pos hdege
      have htouch : TouchesIn lines g f :=
        ⟨inv.perm.mem_iff.mpr (List.mem_append.mpr (Or.inl hgmem)),
         hfl, h, hgh, (mem_lineEnds_iff f h).mpr hfmatch⟩
      refine ⟨f, hfperm, ?_, by omega⟩
      refine ⟨?_, ?_, ?_, ?_, ?_, ?_⟩
      · refine inv.perm.trans ((hfperm.append_left consumed).trans ?_)
        have : consumed ++ f :: rest = (consumed ++ [f]) ++ rest := by
          simp
        rw [this]
      · rw [← hceq]
        intro hnil
        rw [List.append_eq_nil] at hnil
        exact inv.chain_ne hnil.2
      · exact List.mem_append_left _ inv.e_mem
      · intro x
        rw [hchain'_ends, count_pair, pairCount_comm]
        exact hble2 x
      · intro x hx
        rw [hchain'_ends, count_pair, pairCount_comm] at hx
        exact hsat2 x hx
      · intro g' hg'
        rcases List.mem_append.mp hg' with hg' | hg'
        · exact inv.conn g' hg'
        · rw [List.mem_singleton.mp hg']
          exact (inv.conn g hgmem).tail htouch
  · -- the step extended at the back
    simp only [hfm] at hstep
    have hpair := Option.some_inj.mp hstep
    have hceq : chain ++ f'.tail = chain' := congrArg Prod.fst hpair
    have hreq : rest = rem' := congrArg Prod.snd hpair
    subst hreq
    obtain ⟨f, hfmem, hfmatch, hforient, hfperm, hflen⟩ :=
      findMatch_some_spec hfm
    have hfl : f ∈ lines :=
      inv.perm.mem_iff.mpr (List.mem_append.mpr (Or.inr hfmem))
    have hflen2 : 2 ≤ f.length := hlens f hfl
    have hf'len : 2 ≤ f'.length := by
      rw [hforient, orientFrom_length]; exact hflen2
    have hf'ne : f' ≠ [] := List.ne_nil_of_length_pos (by omega)
    have hf'head : f'.head? = some q := by
      rw [hforient]; exact orientFrom_head hfmatch
    obtain ⟨r, hr⟩ := exists_getLast?_of_ne_nil f' hf'ne
    have htail_ne : f'.tail ≠ [] := by
      apply List.ne_nil_of_length_pos
      rw [List.length_tail]
      omega
    have hchead : chain'.head? = some h := by
      rw [← hceq, head?_append_of_ne_nil _ _ inv.chain_ne]
      exact hh
    have hclast : chain'.getLast? = some r := by
      rw [← hceq, getLast?_append_of_ne_nil _ _ htail_ne,
        tail_getLast? _ htail_ne]
      exact hr
    have hchain'_ends : lineEnds chain' = [h, r] :=
      lineEnds_eq_of _ _ _ hchead hclast
    have hf_ends : ∀ x, ptCount (lineEnds f) x = pairCount q r x := by
      intro x
      have h1 : ptCount (lineEnds f') x = ptCount (lineEnds f) x := by
        rw [hforient]; exact orientFrom_ends_count q f x
      rw [← h1, lineEnds_eq_of f' q r hf'head hr, count_pair]
    have hble' : ∀ x, pairCount h q x ≤ endDegree consumed x := by
      intro x
      have := inv.bnd_le x
      rw [hchain_ends, count_pair] at this
      exact this
    have hsat' : ∀ x, pairCount h q x = 0 →
        endDegree consumed x = 0 ∨ endDegree rem x = 0 := by
      intro x hx
      apply inv.sat
      rw [hchain_ends, count_pair]
      exact hx
    obtain ⟨hble2, hsat2⟩ :=
      step_counts hNB inv.perm hfperm hf_ends hble' hsat'
    have hdege : 0 < endDegree consumed q := by
      apply lt_of_lt_of_le _ (inv.bnd_le q)
      rw [hchain_ends, count_pair]
      unfold pairCount
      simp
    obtain ⟨g, hgmem, hgq⟩ := exists_mem_of_endDegree_pos hdege
    have htouch : TouchesIn lines g f :=
      ⟨inv.perm.mem_iff.mpr (List.mem_append.mpr (Or.inl hgmem)),
       hfl, q, hgq, (mem_lineEnds_iff f q).mpr hfmatch⟩
    refine ⟨f, hfperm, ?_, by omega⟩
    refine ⟨?_, ?_, ?_, ?_, ?_, ?_⟩
    · refine inv.perm.trans ((hfperm.append_left consumed).trans ?_)
      have : consumed ++ f :: rest = (consumed ++ [f]) ++ rest := by
        simp
      rw [this]
    · rw [← hceq]
      intro hnil
      rw [List.append_eq_nil] at hnil
      exact inv.chain_ne hnil.1
    · exact List.mem_append_left _ inv.e_mem
    · intro x
      rw [hchain'_ends, count_pair]
      exact hble2 x
    · intro x hx
      rw [hchain'_ends, count_pair] at hx
      exact hsat2 x hx
    · intro g' hg'
      rcases List.mem_append.mp hg' with hg' | hg'
      · exact inv.conn g' hg'
      · rw [List.mem_singleton.mp hg']
        exact (inv.conn g hgmem).tail htouch

theorem partsApart_symm : Symmetric PartsApart := by
  intro p q hpq a ha b hb ht
  exact hpq b hb a ha (touches_symm ht)

theorem growChain_inv
    {lines : List Line} {e : Line}
    (hNB : NoBranchPts lines) (hlens : ∀ l ∈ lines, 2 ≤ l.length)
    (fuel : ℕ) :
    ∀ (chain : Line) (consumed rem : List Line),
      WalkInv lines e chain consumed rem → rem.length ≤ fuel →
      ∃ consumed',
        WalkInv lines e (growChain fuel chain rem).1 consumed'
          (growChain fuel chain rem).2 ∧
        ((growChain fuel chain rem).2 = [] ∨
          growStep (growChain fuel chain rem).1
            (growChain fuel chain rem).2 = none) := by
  induction fuel with
  | zero =>
      intro chain consumed rem inv hle
      have hrem : rem = [] := List.eq_nil_of_length_eq_zero (by omega)
      subst hrem
      exact ⟨consumed, inv, Or.inl rfl⟩
  | succ n ih =>
      intro chain consumed rem inv hle
      rcases hstep : growStep chain rem with _ | ⟨chain', rem'⟩
      · have hgc : growChain (n + 1) chain rem = (chain, rem) := by
          simp only [growChain, hstep]
        rw [hgc]
        exact ⟨consumed, inv, Or.inr hstep⟩
      · have hgc : growChain (n + 1) chain rem =
            growChain n chain' rem' := by
          simp only [growChain, hstep]
        obtain ⟨f, hfperm, inv', hlen⟩ :=
          growStep_some_inv hNB hlens inv hstep
        obtain ⟨consumed', hinv', hfin⟩ :=
          ih chain' (consumed ++ [f]) rem' inv' (by omega)
        rw [hgc]
        exact ⟨consumed', hinv', hfin⟩

theorem walk_final_sat
    {lines : List Line} {e chain : Line} {consumed rem : List Line}
    (inv : WalkInv lines e chain consumed rem)
    (hfin : rem = [] ∨ growStep chain rem = none) :
    ∀ x, endDegree consumed x = 0 ∨ endDegree rem x = 0 := by
  rcases hfin with hfin | hfin
  · intro x; right; rw [hfin]; exact endDegree_nil x
  · obtain ⟨h, hh⟩ := exists_head?_of_ne_nil chain inv.chain_ne
    obtain ⟨q, hq⟩ := exists_getLast?_of_ne_nil chain inv.chain_ne
    have hchain_ends : lineEnds chain = [h, q] :=
      lineEnds_eq_of _ _ _ hh hq
    unfold growStep at hfin
    simp only [hq] at hfin
    rcases hfm : findMatch q rem with _ | ⟨f', rest⟩
    · simp only [hfm, hh] at hfin
      rcases hfm2 : findMatch h rem with _ | ⟨f', rest⟩
      · have hdq : endDegree rem q = 0 := by
          by_contra hne
          obtain ⟨l, hl, hxl⟩ :=
            exists_mem_of_endDegree_pos (Nat.pos_of_ne_zero hne)
          exact ((findMatch_none_iff q rem).mp hfm l hl)
            ((mem_lineEnds_iff l q).mp hxl)
        have hdh : endDegree rem h = 0 := by
          by_contra hne
          obtain ⟨l, hl, hxl⟩ :=
            exists_mem_of_endDegree_pos (Nat.pos_of_ne_zero hne)
          exact ((findMatch_none_iff h rem).mp hfm2 l hl)
            ((mem_lineEnds_iff l h).mp hxl)
        intro x
        by_cases hx : ptCount (lineEnds chain) x = 0
        · exact inv.sat x hx
        · right
          have hxmem : x ∈ lineEnds chain :=
            (ptCount_pos_iff _ x).mp (Nat.pos_of_ne_zero hx)
          rw [hchain_ends] at hxmem
          rcases (by simpa using hxmem : x = h ∨ x = q) with rfl | rfl
          · exact hdh
          · exact hdq
      · simp only [hfm2] at hfin; exact absurd hfin (by simp)
    · simp only [hfm] at hfin; exact absurd hfin (by simp)

theorem conn_not_in_rem
    {lines : List Line} {e : Line} {consumed rem : List Line}
    (hlens : ∀ l ∈ lines, 2 ≤ l.length)
    (hperm : lines.Perm (consumed ++ rem))
    (heMem : e ∈ consumed)
    (hsat : ∀ x, endDegree consumed x = 0 ∨ endDegree rem x = 0) :
    ∀ g, ConnIn lines e g → g ∉ rem := by
  have key : ∀ g, g ∈ consumed → g ∉ rem := by
    intro g hg
    have hgl : g ∈ lines :=
      hperm.mem_iff.mpr (List.mem_append.mpr (Or.inl hg))
    have hgne : g ≠ [] :=
      List.ne_nil_of_length_pos (by have := hlens g hgl; omega)
    obtain ⟨a, ha⟩ := exists_head?_of_ne_nil g hgne
    have hmem : a ∈ lineEnds g := (mem_lineEnds_iff g a).mpr (Or.inl ha)
    have h1 : 0 < endDegree consumed a := endDegree_pos_of_mem hg hmem
    rcases hsat a with h2 | h2
    · omega
    · intro hgrem
      have := endDegree_pos_of_mem hgrem hmem
      omega
  intro g hconn
  induction hconn with
  | refl => exact key e heMem
  | @tail b c hab hbc ih =>
      obtain ⟨hbl, hcl, x, hxb, hxc⟩ := hbc
      rcases List.mem_append.mp (hperm.mem_iff.mp hbl) with hbcon | hbrem
      · have h1 : 0 < endDegree consumed x :=
          endDegree_pos_of_mem hbcon hxb
        rcases hsat x with h2 | h2
        · omega
        · intro hcrem
          have := endDegree_pos_of_mem hcrem hxc
          omega
      · exact absurd hbrem ih

theorem conn_in_part
    {lines : List Line} {parts : List (List Line)} {e : Line}
    {p0 : List Line}
    (hpart : IsComponentPartition lines parts)
    (hp0 : p0 ∈ parts) (hep0 : e ∈ p0) :
    ∀ g, ConnIn lines e g → g ∈ p0 := by
  obtain ⟨hperm, _, _, hpair⟩ := hpart
  intro g hg
  induction hg with
  | refl => exact hep0
  | @tail b c hab hbc ih =>
      obtain ⟨hbl, hcl, ht⟩ := hbc
      obtain ⟨p1, hp1, hcp1⟩ :=
        List.mem_flatten.mp (hperm.mem_iff.mp hcl)
      by_cases hpp : p1 = p0
      · rw [← hpp]; exact hcp1
      · exact absurd ht
          (hpair.forall partsApart_symm hp0 hp1
            (fun hEq => hpp hEq.symm) b ih c hcp1)

theorem perm_split {a b c d : List Line}
    (h : (a ++ b).Perm (c ++ d))
    (had : ∀ v ∈ a, v ∉ d) (hbc : ∀ v ∈ b, v ∉ c) :
    a.Perm c ∧ b.Perm d := by
  have hm : (↑a + ↑b : Multiset Line) = ↑c + ↑d := by
    have := Multiset.coe_eq_coe.mpr h
    simpa using this
  have hcount : ∀ v, Multiset.count v (↑a : Multiset Line) +
      Multiset.count v (↑b : Multiset Line) =
      Multiset.count v (↑c : Multiset Line) +
      Multiset.count v (↑d : Multiset Line) := by
    intro v
    have := congrArg (Multiset.count v) hm
    simpa [Multiset.count_add] using this
  have h1 : ∀ v, Multiset.count v (↑a : Multiset Line) =
      Multiset.count v (↑c : Multiset Line) := by
    intro v
    have hcv := hcount v
    by_cases hva : v ∈ a
    · have hd0 : Multiset.count v (↑d : Multiset Line) = 0 :=
        Multiset.count_eq_zero.mpr (by simpa using had v hva)
      by_cases hvb : v ∈ b
      · have hc0 : Multiset.count v (↑c : Multiset Line) = 0 :=
          Multiset.count_eq_zero.mpr (by simpa using hbc v hvb)
        have hbp : 0 < Multiset.count v (↑b : Multiset Line) :=
          Multiset.count_pos.mpr (by simpa using hvb)
        have hap : 0 < Multiset.count v (↑a : Multiset Line) :=
          Multiset.count_pos.mpr (by simpa using hva)
        omega
      · have hb0 : Multiset.count v (↑b : Multiset Line) = 0 :=
          Multiset.count_eq_zero.mpr (by simpa using hvb)
        omega
    · have ha0 : Multiset.count v (↑a : Multiset Line) = 0 :=
        Multiset.count_eq_zero.mpr (by simpa using hva)
      by_cases hvb : v ∈ b
      · have hc0 : Multiset.count v (↑c : Multiset Line) = 0 :=
          Multiset.count_eq_zero.mpr (by simpa using hbc v hvb)
        omega
      · have hb0 : Multiset.count v (↑b : Multiset Line) = 0 :=
          Multiset.count_eq_zero.mpr (by simpa using hvb)
        omega
  have hac : (↑a : Multiset Line) = ↑c := Multiset.ext.mpr h1
  have hbd : (↑b : Multiset Line) = ↑d := by
    apply Multiset.ext.mpr
    intro v
    have := hcount v
    have := h1 v
    omega
  exact ⟨Multiset.coe_eq_coe.mp hac, Multiset.coe_eq_coe.mp hbd⟩

theorem strand_component_split
    {lines : List Line} {e : Line} {consumed rem : List Line}
    {parts : List (List Line)} {p0 : List Line} {others : List (List Line)}
    (hlens : ∀ l ∈ lines, 2 ≤ l.length)
    (hperm : lines.Perm (consumed ++ rem))
    (hconsconn : ∀ f ∈ consumed, ConnIn lines e f)
    (heMem : e ∈ consumed)
    (hsat : ∀ x, endDegree consumed x = 0 ∨ endDegree rem x = 0)
    (hpart : IsComponentPartition lines parts)
    (hp0 : p0 ∈ parts) (hep0 : e ∈ p0)
    (hothers : parts.Perm (p0 :: others)) :
    consumed.Perm p0 ∧ rem.Perm others.flatten := by
  obtain ⟨hpflat, hne, hpconn, hpair⟩ := hpart
  have hflat2 : lines.Perm (p0 ++ others.flatten) :=
    hpflat.trans (by simpa using hothers.flatten)
  have hmem_lines : ∀ p ∈ parts, ∀ l ∈ p, l ∈ lines := by
    intro p hp l hl
    exact hpflat.mem_iff.mpr (List.mem_flatten.mpr ⟨p, hp, hl⟩)
  have hself : ∀ p ∈ parts, ∀ l ∈ p, Touches l l := by
    intro p hp l hl
    have := hlens l (hmem_lines p hp l hl)
    exact touches_self (List.ne_nil_of_length_pos (by omega))
  have hdisj : ∀ p ∈ parts, ∀ q ∈ parts, p ≠ q → ∀ l ∈ p, l ∉ q := by
    intro p hp q hq hpq l hlp hlq
    exact (hpair.forall partsApart_symm hp hq hpq l hlp l hlq)
      (hself p hp l hlp)
  have hpair2 : (p0 :: others).Pairwise PartsApart :=
    (hothers.pairwise_iff (fun {_ _} h => partsApart_symm h)).mp hpair
  have hnodup : p0 ∉ others := by
    intro hdup
    have hR := (List.pairwise_cons.mp hpair2).1 p0 hdup
    obtain ⟨l, hl⟩ : ∃ l, l ∈ p0 := by
      rcases p0 with _ | ⟨l, t⟩
      · exact absurd rfl (hne _ hp0)
      · exact ⟨l, List.mem_cons_self _ _⟩
    exact hR l hl l hl (hself p0 hp0 l hl)
  have had : ∀ v ∈ consumed, v ∉ others.flatten := by
    intro v hv hvflat
    have hvp0 : v ∈ p0 :=
      conn_in_part ⟨hpflat, hne, hpconn, hpair⟩ hp0 hep0 v
        (hconsconn v hv)
    obtain ⟨p1, hp1e, hvp1⟩ := List.mem_flatten.mp hvflat
    have hp1 : p1 ∈ parts :=
      hothers.mem_iff.mpr (List.mem_cons_of_mem _ hp1e)
    by_cases hpp : p1 = p0
    · rw [hpp] at hp1e; exact hnodup hp1e
    · exact hdisj p0 hp0 p1 hp1 (fun hEq => hpp hEq.symm) v hvp0 hvp1
  have hbc : ∀ v ∈ rem, v ∉ p0 := by
    intro v hv hvp0
    have hconn0 : ConnIn p0 e v := hpconn p0 hp0 e hep0 v hvp0
    have hconnl : ConnIn lines e v := by
      apply Relation.ReflTransGen.mono ?_ hconn0
      intro a b hab
      obtain ⟨hap, hbp, ht⟩ := hab
      exact ⟨hmem_lines p0 hp0 a hap, hmem_lines p0 hp0 b hbp, ht⟩
    exact conn_not_in_rem hlens hperm heMem hsat v hconnl hv
  exact perm_split (hperm.symm.trans hflat2) had hbc

theorem componentPartition_nil {parts : List (List Line)}
    (hpart : IsComponentPartition [] parts) : parts = [] := by
  obtain ⟨hperm, hne, _, _⟩ := hpart
  cases parts with
  | nil => rfl
  | cons p ps =>
      have hflat : (p :: ps).flatten = [] := hperm.symm.eq_nil
      rw [List.flatten_cons, List.append_eq_nil] at hflat
      exact absurd hflat.1 (hne p (List.mem_cons_self _ _))

theorem mergeStrands_length :
    ∀ (fuel : ℕ) (lines : List Line) (parts : List (List Line)),
      lines.length ≤ fuel →
      (∀ l ∈ lines, 2 ≤ l.length) → NoBranchPts lines →
      IsComponentPartition lines parts →
      (mergeStrands fuel lines).length = parts.length := by
  intro fuel
  induction fuel with
  | zero =>
      intro lines parts hle _ _ hpart
      have hnil : lines = [] := List.eq_nil_of_length_eq_zero (by omega)
      subst hnil
      rw [componentPartition_nil hpart]
      rfl
  | succ n ih =>
      intro lines parts hle hlens hNB hpart
      cases lines with
      | nil =>
          rw [componentPartition_nil hpart]
          rfl
      | cons e rest =>
          obtain ⟨p0, hp0, hep0⟩ := List.mem_flatten.mp
            (hpart.1.mem_iff.mp (List.mem_cons_self e rest))
          obtain ⟨pre, post, hdecomp⟩ := List.append_of_mem hp0
          have hothers : parts.Perm (p0 :: (pre ++ post)) := by
            rw [hdecomp]
            exact List.perm_middle
          have hene : e ≠ [] := List.ne_nil_of_length_pos
            (by have := hlens e (List.mem_cons_self _ _); omega)
          have inv0 : WalkInv (e :: rest) e e [e] rest := by
            refine ⟨List.Perm.refl _, hene, List.mem_singleton.mpr rfl,
              ?_, ?_, ?_⟩
            · intro x
              rw [endDegree_cons, endDegree_nil]
              omega
            · intro x hx
              left
              rw [endDegree_cons, endDegree_nil, hx]
            · intro f hf
              rw [List.mem_singleton.mp hf]
              exact Relation.ReflTransGen.refl
          obtain ⟨consumed', hinv', hfin⟩ :=
            growChain_inv hNB hlens rest.length e [e] rest inv0
              (le_refl _)
          have hsat := walk_final_sat hinv' hfin
          obtain ⟨hc_perm, hr_perm⟩ :=
            strand_component_split hlens hinv'.perm hinv'.conn
              hinv'.e_mem hsat hpart hp0 hep0 hothers
          have hp0ne : p0 ≠ [] := hpart.2.1 p0 hp0
          have hp0pos : 0 < p0.length := List.length_pos.mpr hp0ne
          have hclen : consumed'.length = p0.length := hc_perm.length_eq
          have hremlen :
              (growChain rest.length e rest).2.length ≤ n := by
            have h1 := hinv'.perm.length_eq
            rw [List.length_append] at h1
            simp only [List.length_cons] at h1 hle
            omega
          have hlens' : ∀ l ∈ (growChain rest.length e rest).2,
              2 ≤ l.length := by
            intro l hl
            exact hlens l (hinv'.perm.mem_iff.mpr
              (List.mem_append.mpr (Or.inr hl)))
          have hNB' : NoBranchPts (growChain rest.length e rest).2 := by
            intro x
            have h1 := hNB x
            have h2 : endDegree (e :: rest) x =
                endDegree consumed' x +
                endDegree (growChain rest.length e rest).2 x := by
              rw [endDegree_perm hinv'.perm, endDegree_append]
            omega
          have hmemothers : ∀ p ∈ pre ++ post, p ∈ parts := by
            intro p hp
            exact hothers.mem_iff.mpr (List.mem_cons_of_mem _ hp)
          have hpart' : IsComponentPartition
              (growChain rest.length e rest).2 (pre ++ post) := by
            refine ⟨hr_perm, ?_, ?_, ?_⟩
            · intro p hp
              exact hpart.2.1 p (hmemothers p hp)
            · intro p hp
              exact hpart.2.2.1 p (hmemothers p hp)
            · exact ((hothers.pairwise_iff
                (fun {_ _} h => partsApart_symm h)).mp
                hpart.2.2.2).of_cons
          have hIH := ih (growChain rest.length e rest).2
            (pre ++ post) hremlen hlens' hNB' hpart'
          have hplen : parts.length = (pre ++ post).length + 1 := by
            rw [hothers.length_eq]
            rfl
          simp only [mergeStrands]
          rw [List.length_cons, hIH]
          omega

theorem qualifyingLines_two_le (member_ids : List Int)
    (way_lookup : List (Int × Geometry)) :
    ∀ l ∈ qualifyingLines member_ids way_lookup, 2 ≤ l.length := by
  intro l hl
  unfold qualifyingLines at hl
  rw [List.mem_filterMap] at hl
  obtain ⟨mid, _, hsome⟩ := hl
  rcases hg : lookupGeom way_lookup mid with _ | g
  · rw [hg] at hsome; simp at hsome
  · rcases g with c | coords | ls
    · rw [hg] at hsome; simp at hsome
    · rw [hg] at hsome
      by_cases hlen : 2 ≤ coords.length
      · simp only [if_pos hlen, Option.some_inj] at hsome
        rw [← hsome]; exact hlen
      · simp [if_neg hlen] at hsome
    · rw [hg] at hsome; simp at hsome

theorem combine_eq_merge (member_ids : List Int)
    (way_lookup : List (Int × Geometry))
    (hq : qualifyingLines member_ids way_lookup ≠ []) :
    combine_polylines_for_relation member_ids way_lookup =
      (match lineMergeModel (qualifyingLines member_ids way_lookup) with
        | [s] => some (Geometry.lineString s)
        | ss => some (Geometry.multiLineString ss)) := by
  unfold combine_polylines_for_relation combineWith
  have hm : member_ids ≠ [] := fun h => hq (by rw [h]; rfl)
  rw [if_neg hm]
  rcases hql : qualifyingLines member_ids way_lookup with _ | ⟨l, ls⟩
  · exact absurd hql hq
  · rcases hmm : lineMergeModel (l :: ls) with _ | ⟨s, _ | ⟨s2, tl⟩⟩
    · simp [lineMergeOutcome, hmm]
    · simp [lineMergeOutcome, hmm]
    · simp [lineMergeOutcome, hmm]

/-- C1 (amended).  For every relation whose qualifying ways have no
branch point (no coordinate is an endpoint of more than two qualifying
ways): if the qualifying ways form k ≥ 2 disjoint connected components
under exact endpoint matching, `combine_polylines_for_relation` returns
a MultiLineString with exactly k constituent sequences, and if they
form exactly one connected component it returns a single LineString.
(The original claim, without the no-branch-point condition, fails: at a
branch point the greedy walk leaves part of a connected component to a
second strand — see the counterexample.) -/
theorem assemble_component_count (member_ids : List Int)
    (way_lookup : List (Int × Geometry)) (parts : List (List Line))
    (hNB : NoBranchPts (qualifyingLines member_ids way_lookup))
    (hpart : IsComponentPartition
      (qualifyingLines member_ids way_lookup) parts) :
    (2 ≤ parts.length →
      combine_polylines_for_relation member_ids way_lookup =
        some (Geometry.multiLineString
          (lineMergeModel (qualifyingLines member_ids way_lookup))) ∧
      (lineMergeModel
        (qualifyingLines member_ids way_lookup)).length =
        parts.length) ∧
    (parts.length = 1 →
      ∃ s, combine_polylines_for_relation member_ids way_lookup =
        some (Geometry.lineString s)) := by
  have hlens := qualifyingLines_two_le member_ids way_lookup
  have hcount : (lineMergeModel
      (qualifyingLines member_ids way_lookup)).length = parts.length :=
    mergeStrands_length _ _ parts (le_refl _) hlens hNB hpart
  have hqne : parts ≠ [] →
      qualifyingLines member_ids way_lookup ≠ [] := by
    intro hpne hq
    rw [hq] at hpart
    exact hpne (componentPartition_nil hpart)
  constructor
  · intro hk2
    have hqne' : qualifyingLines member_ids way_lookup ≠ [] :=
      hqne (by intro h; rw [h] at hk2; simp at hk2)
    refine ⟨?_, hcount⟩
    rw [combine_eq_merge _ _ hqne']
    rcases hmm : lineMergeModel (qualifyingLines member_ids way_lookup)
      with _ | ⟨s, _ | ⟨s2, tl⟩⟩
    · exfalso
      rw [hmm] at hcount
      simp only [List.length_nil] at hcount
      omega
    · exfalso
      rw [hmm] at hcount
      simp only [List.length_cons, List.length_nil] at hcount
      omega
    · rfl
  · intro hk1
    have hqne' : qualifyingLines member_ids way_lookup ≠ [] :=
      hqne (by intro h; rw [h] at hk1; simp at hk1)
    rw [combine_eq_merge _ _ hqne']
    have hone : (lineMergeModel
        (qualifyingLines member_ids way_lookup)).length = 1 := by
      rw [hcount, hk1]
    rcases hmm : lineMergeModel (qualifyingLines member_ids way_lookup)
      with _ | ⟨s, _ | ⟨s2, tl⟩⟩
    · rw [hmm] at hone; simp at hone
    · exact ⟨s, rfl⟩
    · rw [hmm] at hone; simp at hone

theorem assemble_component_count_witness :
    combine_polylines_for_relation [1, 2]
      [(1, Geometry.lineString [(0, 0), (1, 0)]),
       (2, Geometry.lineString [(5, 5), (6, 6)])] =
      some (Geometry.multiLineString
        (lineMergeModel (qualifyingLines [1, 2]
          [(1, Geometry.lineString [(0, 0), (1, 0)]),
           (2, Geometry.lineString [(5, 5), (6, 6)])]))) ∧
    (lineMergeModel (qualifyingLines [1, 2]
      [(1, Geometry.lineString [(0, 0), (1, 0)]),
       (2, Geometry.lineString [(5, 5), (6, 6)])])).length =
      ([[[(0, 0), (1, 0)]], [[(5, 5), (6, 6)]]] :
        List (List Line)).length :=
  (assemble_component_count [1, 2]
    [(1, Geometry.lineString [(0, 0), (1, 0)]),
     (2, Geometry.lineString [(5, 5), (6, 6)])]
    [[[(0, 0), (1, 0)]], [[(5, 5), (6, 6)]]]
    (noBranchPts_of_forall_mem (by decide))
    ⟨by decide, by decide,
     by
       intro p hp a ha b hb
       fin_cases hp <;> fin_cases ha <;> fin_cases hb <;>
         exact Relation.ReflTransGen.refl,
     by decide⟩).1 (by decide)

/-- C1 counterexample: three qualifying ways forming a Y (all sharing
the endpoint (1,0)) are a single connected component under exact
endpoint matching, yet `combine_polylines_for_relation` returns a
MultiLineString of two sequences, not a single LineString — refuting
the claim's "exactly one connected component gives a LineString". -/
theorem assemble_component_count_counterexample :
    IsComponentPartition
      (qualifyingLines [1, 2, 3]
        [(1, Geometry.lineString [(0, 0), (1, 0)]),
         (2, Geometry.lineString [(1, 0), (2, 0)]),
         (3, Geometry.lineString [(1, 0), (1, 1)])])
      [[[(0, 0), (1, 0)], [(1, 0), (2, 0)], [(1, 0), (1, 1)]]] ∧
    combine_polylines_for_relation [1, 2, 3]
      [(1, Geometry.lineString [(0, 0), (1, 0)]),
       (2, Geometry.lineString [(1, 0), (2, 0)]),
       (3, Geometry.lineString [(1, 0), (1, 1)])] =
      some (Geometry.multiLineString
        [[(0, 0), (1, 0), (2, 0)], [(1, 0), (1, 1)]]) := by
  refine ⟨⟨by decide, by decide, ?_, by decide⟩, by decide⟩
  intro p hp a ha b hb
  fin_cases hp
  fin_cases ha <;> fin_cases hb <;>
    first
    | exact Relation.ReflTransGen.refl
    | exact Relation.ReflTransGen.single (by decide)

/-- C9.  For every LineString or MultiLineString (and any other
geometry), when the backward transformer inverts the forward one —
spec 4.4's contract for the projection pair — the reprojection
round-trip `transform_coordinates_back ∘ transform_coordinates`
returns the input exactly: same length, same order, equal coordinates
(so in particular equal within any nonnegative tolerance). -/
theorem reproject_round_trip (fwd bwd : Pt → Pt)
    (hinv : ∀ p, bwd (fwd p) = p) (g : Geometry) :
    transform_coordinates_back bwd (transform_coordinates fwd g) = g := by
  have hcomp : ∀ coords : Line, (coords.map fwd).map bwd = coords := by
    intro coords
    rw [List.map_map]
    have : bwd ∘ fwd = id := funext hinv
    rw [this, List.map_id]
  cases g with
  | point c => rfl
  | lineString coords =>
      show Geometry.lineString ((coords.map fwd).map bwd) =
        Geometry.lineString coords
      rw [hcomp coords]
  | multiLineString lines =>
      show Geometry.multiLineString
        ((lines.map (fun line => line.map fwd)).map
          (fun line => line.map bwd)) =
        Geometry.multiLineString lines
      rw [List.map_map]
      have : (fun line : Line => line.map bwd) ∘
          (fun line : Line => line.map fwd) = id := by
        funext line
        exact hcomp line
      rw [this, List.map_id]

theorem reproject_round_trip_witness :
    transform_coordinates_back (fun p => (p.1 - 1, p.2))
      (transform_coordinates (fun p => (p.1 + 1, p.2))
        (Geometry.lineString [(0, 0), (1, 2)])) =
      Geometry.lineString [(0, 0), (1, 2)] :=
  reproject_round_trip (fun p => (p.1 + 1, p.2))
    (fun p => (p.1 - 1, p.2))
    (fun p => by obtain ⟨x, y⟩ := p; simp)
    (Geometry.lineString [(0, 0), (1, 2)])

/-- C8 (amended).  `process_feature` contains no projection-failure
handling: it applies projection, simplification and inverse projection
unconditionally to every feature, so a feature with an out-of-domain
coordinate is not excluded from simplification and is not passed
through with its original geometry (the batch continues only because
the projection yields sentinel values instead of raising).  Geometries
other than LineString/MultiLineString pass through unchanged. -/
theorem projection_failure_not_excluded (fwd bwd : Pt → Pt) (tol : ℚ) :
    (∀ g, process_feature fwd bwd tol g =
      transform_coordinates_back bwd
        (simplify_geometry (transform_coordinates fwd g) tol)) ∧
    (∀ c, process_feature fwd bwd tol (Geometry.point c) =
      Geometry.point c) :=
  ⟨fun _ => rfl, fun _ => rfl⟩

theorem projection_failure_not_excluded_witness :
    process_feature modelToPlanar modelToGeographic 500
      (Geometry.point (200, 0)) = Geometry.point (200, 0) :=
  (projection_failure_not_excluded modelToPlanar modelToGeographic
    500).2 (200, 0)

set_option maxRecDepth 4000 in
/-- C8 counterexample: under the modelled projection, the feature
`LineString [(200,0), (0,0), (1,0)]` has the coordinate (200, 0)
outside the projection's valid domain, yet `process_feature` does not
pass the feature through with its original geometry — the sentinel
coordinate flows through simplification and the inverse projection,
refuting "the feature is excluded from simplification and passed
through with its original unsimplified geometry". -/
theorem projection_failure_not_excluded_counterexample :
    ¬inProjectionDomain (200, 0) ∧
    process_feature modelToPlanar modelToGeographic 500
      (Geometry.lineString [(200, 0), (0, 0), (1, 0)]) ≠
      Geometry.lineString [(200, 0), (0, 0), (1, 0)] := by
  constructor
  · with_unfolding_all decide
  · with_unfolding_all decide

theorem dp_succ_eq (n : ℕ) (tol : ℚ) (seq : Line) :
    douglasPeucker (n + 1) tol seq =
      if seq.length < 3 then seq
      else
        match firstMax ((seq.tail.dropLast).map
            (fun p => perpDistSq p (hd seq) (lst seq))) with
        | none => seq
        | some (j, d) =>
            if 0 ≤ tol ∧ d ≤ tol ^ 2 then [hd seq, lst seq]
            else
              douglasPeucker n tol (seq.take (j + 2)) ++
                (douglasPeucker n tol (seq.drop (j + 1))).tail := rfl

theorem dp_small {fuel : ℕ} {tol : ℚ} {seq : Line}
    (h : seq.length < 3) : douglasPeucker fuel tol seq = seq := by
  cases fuel with
  | zero => rfl
  | succ n => rw [dp_succ_eq, if_pos h]

theorem hd_head? {seq : Line} (h : seq ≠ []) :
    seq.head? = some (hd seq) := by
  cases seq with
  | nil => exact absurd rfl h
  | cons a t => rfl

theorem lst_getLast? {seq : Line} (h : seq ≠ []) :
    seq.getLast? = some (lst seq) := by
  obtain ⟨b, hb⟩ := exists_getLast?_of_ne_nil seq h
  rw [hb]
  unfold lst
  rw [hb]
  rfl

theorem hd_eq_of_head? {seq : Line} {a : Pt} (h : seq.head? = some a) :
    hd seq = a := by
  have hne : seq ≠ [] := by
    intro h'; rw [h'] at h; exact Option.noConfusion h
  have := hd_head? hne
  rw [h] at this
  exact (Option.some_inj.mp this).symm

theorem lst_eq_of_getLast? {seq : Line} {b : Pt}
    (h : seq.getLast? = some b) : lst seq = b := by
  unfold lst
  rw [h]
  rfl

theorem getLast?_cons_of_ne_nil {α : Type} (a : α) {t : List α}
    (h : t ≠ []) : (a :: t).getLast? = t.getLast? := by
  cases t with
  | nil => exact absurd rfl h
  | cons b u => exact List.getLast?_cons_cons

theorem take_head? {α : Type} (l : List α) (n : ℕ) (h : 0 < n) :
    (l.take n).head? = l.head? := by
  cases l with
  | nil => rw [List.take_nil]
  | cons a t =>
      cases n with
      | zero => omega
      | succ m => rw [List.take_succ_cons]; rfl

theorem drop_getLast? {α : Type} (l : List α) (n : ℕ)
    (h : n < l.length) : (l.drop n).getLast? = l.getLast? := by
  conv_rhs => rw [← List.take_append_drop n l]
  rw [getLast?_append_of_ne_nil]
  apply List.ne_nil_of_length_pos
  rw [List.length_drop]
  omega

theorem interior_length (seq : Line) :
    seq.tail.dropLast.length = seq.length - 2 := by
  rw [List.length_dropLast, List.length_tail]
  omega

theorem seq_decomp {seq : Line} (h : 2 ≤ seq.length) :
    seq = hd seq :: (seq.tail.dropLast ++ [lst seq]) := by
  cases seq with
  | nil => simp at h
  | cons a t =>
      have ht : t ≠ [] := by
        intro h'
        rw [h'] at h
        simp at h
      have h2 : (a :: t).getLast? = t.getLast? :=
        getLast?_cons_of_ne_nil a ht
      have h1 : lst (a :: t) = t.getLast ht := by
        unfold lst
        rw [h2, List.getLast?_eq_getLast t ht]
        rfl
      show a :: t = a :: (t.dropLast ++ [lst (a :: t)])
      rw [h1, List.dropLast_append_getLast ht]

theorem firstMax_eq_none {l : List ℚ} (h : firstMax l = none) :
    l = [] := by
  cases l with
  | nil => rfl
  | cons v rest =>
      exfalso
      rw [firstMax] at h
      rcases hrec : firstMax rest with _ | ⟨j, w⟩
      · simp only [hrec] at h
        exact Option.noConfusion h
      · simp only [hrec] at h
        by_cases hvw : v < w
        · rw [if_pos hvw] at h; exact Option.noConfusion h
        · rw [if_neg hvw] at h; exact Option.noConfusion h

theorem firstMax_spec :
    ∀ (l : List ℚ) (j : ℕ) (w : ℚ), firstMax l = some (j, w) →
      j < l.length ∧ l.getD j 0 = w ∧
      (∀ i, i < j → l.getD i 0 < w) ∧
      (∀ i, i < l.length → l.getD i 0 ≤ w) := by
  intro l
  induction l with
  | nil => intro j w h; rw [firstMax] at h; exact absurd h (by simp)
  | cons v rest ih =>
      intro j w h
      rw [firstMax] at h
      rcases hrec : firstMax rest with _ | ⟨j', w'⟩
      · simp only [hrec] at h
        have hrest : rest = [] := firstMax_eq_none hrec
        have hj : 0 = j ∧ v = w := by
          have := Option.some_inj.mp h
          exact ⟨congrArg Prod.fst this, congrArg Prod.snd this⟩
        obtain ⟨hj, hw⟩ := hj
        subst hj; subst hw; subst hrest
        refine ⟨by simp, rfl, fun i hi => absurd hi (by omega), ?_⟩
        intro i hi
        have : i = 0 := by simpa using hi
        subst this
        exact le_refl v
      · simp only [hrec] at h
        obtain ⟨hjlen, hval, hstrict, hmax⟩ := ih j' w' hrec
        by_cases hvw : v < w'
        · rw [if_pos hvw] at h
          have hj : j' + 1 = j ∧ w' = w := by
            have := Option.some_inj.mp h
            exact ⟨congrArg Prod.fst this, congrArg Prod.snd this⟩
          obtain ⟨hj, hw⟩ := hj
          subst hj; subst hw
          refine ⟨by simp; omega, hval, ?_, ?_⟩
          · intro i hi
            cases i with
            | zero => exact hvw
            | succ i' => exact hstrict i' (by omega)
          · intro i hi
            cases i with
            | zero => exact le_of_lt hvw
            | succ i' => exact hmax i' (by simpa using hi)
        · rw [if_neg hvw] at h
          have hj : 0 = j ∧ v = w := by
            have := Option.some_inj.mp h
            exact ⟨congrArg Prod.fst this, congrArg Prod.snd this⟩
          obtain ⟨hj, hw⟩ := hj
          subst hj; subst hw
          refine ⟨by simp, rfl, fun i hi => absurd hi (by omega), ?_⟩
          intro i hi
          cases i with
          | zero => exact le_refl v
          | succ i' =>
              exact le_trans (hmax i' (by simpa using hi)) (not_lt.mp hvw)

theorem firstMax_append (l₁ l₂ : List ℚ) (w : ℚ)
    (h₁ : ∀ v ∈ l₁, v < w) (h₂ : ∀ v ∈ l₂, v ≤ w) :
    firstMax (l₁ ++ w :: l₂) = some (l₁.length, w) := by
  induction l₁ with
  | nil =>
      rw [List.nil_append, firstMax]
      rcases hrec : firstMax l₂ with _ | ⟨j, w₂⟩
      · simp only [hrec]
        rfl
      · obtain ⟨hjl, hval, _, _⟩ := firstMax_spec l₂ j w₂ hrec
        have hw₂ : w₂ ≤ w := by
          have hmem : l₂.getD j 0 ∈ l₂ := by
            rw [List.getD_eq_getElem _ _ hjl]
            exact List.getElem_mem hjl
          rw [hval] at hmem
          exact h₂ w₂ hmem
        simp only [hrec]
        rw [if_neg (not_lt.mpr hw₂)]
        rfl
  | cons v t ih =>
      have hv : v < w := h₁ v (List.mem_cons_self _ _)
      have ihh := ih (fun u hu => h₁ u (List.mem_cons_of_mem _ hu))
      rw [List.cons_append, firstMax]
      simp only [ihh]
      rw [if_pos hv, List.length_cons]

theorem getD_map_of_lt (f : Pt → ℚ) (l : Line) (j : ℕ)
    (h : j < l.length) :
    (l.map f).getD j 0 = f (l.getD j (0, 0)) := by
  rw [List.getD_eq_getElem _ _ (by simpa using h),
    List.getD_eq_getElem _ _ h, List.getElem_map]

theorem concat_sublist_concat {α : Type} {l₁ l₂ : List α} {y y' : α}
    (h : (l₁ ++ [y]).Sublist (l₂ ++ [y'])) : l₁.Sublist l₂ := by
  have hrev : (y :: l₁.reverse).Sublist (y' :: l₂.reverse) := by
    have := List.reverse_sublist.mpr h
    simpa using this
  obtain ⟨r₁, r₂, hsplit, hyr, hsub⟩ := List.cons_sublist_iff.mp hrev
  rcases r₁ with _ | ⟨z, r₁'⟩
  · simp at hyr
  · rw [List.cons_append] at hsplit
    have hz2 : l₂.reverse = r₁' ++ r₂ := by
      injection hsplit with _ h2'
    have h5 : l₁.reverse.Sublist (r₁' ++ r₂) :=
      hsub.trans (List.sublist_append_right r₁' r₂)
    rw [← hz2] at h5
    exact List.reverse_sublist.mp h5

theorem sublist_tail_of_head_eq {α : Type} {l₁ l₂ : List α}
    (h : l₁.Sublist l₂) (hh : l₁.head? = l₂.head?) :
    l₁.tail.Sublist l₂.tail := by
  cases l₁ with
  | nil => exact List.nil_sublist _
  | cons a t =>
      cases l₂ with
      | nil => simp at hh
      | cons b u =>
          have hab : a = b := by simpa using hh
          subst hab
          exact List.cons_sublist_cons.mp h

theorem decomp_of_ends {l : Line} (h2 : 2 ≤ l.length) {a b : Pt}
    (ha : l.head? = some a) (hb : l.getLast? = some b) :
    ∃ mid, l = a :: (mid ++ [b]) := by
  cases l with
  | nil => simp at ha
  | cons x t =>
      have hx : x = a := by simpa using ha
      subst hx
      have ht : t ≠ [] := by
        intro h'
        rw [h'] at h2
        simp at h2
      refine ⟨t.dropLast, ?_⟩
      have hbt : t.getLast ht = b := by
        have h3 := getLast?_cons_of_ne_nil x ht
        rw [hb, List.getLast?_eq_getLast t ht] at h3
        exact (Option.some_inj.mp h3.symm)
      rw [← hbt, List.dropLast_append_getLast ht]

theorem dp_struct :
    ∀ (k fuel : ℕ) (tol : ℚ) (seq : Line), seq.length ≤ k →
      (douglasPeucker fuel tol seq).Sublist seq ∧
      (douglasPeucker fuel tol seq).head? = seq.head? ∧
      (douglasPeucker fuel tol seq).getLast? = seq.getLast? ∧
      (2 ≤ seq.length → 2 ≤ (douglasPeucker fuel tol seq).length) := by
  intro k
  induction k using Nat.strong_induction_on with
  | _ k ih =>
      intro fuel tol seq hk
      rcases fuel with _ | n
      · exact ⟨List.Sublist.refl _, by trivial, by trivial, fun h => h⟩
      · by_cases h3 : seq.length < 3
        · rw [dp_small h3]
          exact ⟨List.Sublist.refl _, by trivial, by trivial, fun h => h⟩
        · rw [dp_succ_eq, if_neg h3]
          rcases hfm : firstMax ((seq.tail.dropLast).map
              (fun p => perpDistSq p (hd seq) (lst seq))) with _ | ⟨j, d⟩
          · simp only [hfm]
            exact ⟨List.Sublist.refl _, by trivial, by trivial,
              fun h => h⟩
          · simp only [hfm]
            have hlen3 : 3 ≤ seq.length := by omega
            have hseqne : seq ≠ [] :=
              List.ne_nil_of_length_pos (by omega)
            obtain ⟨hjlen, _, _, _⟩ := firstMax_spec _ _ _ hfm
            rw [List.length_map, interior_length] at hjlen
            by_cases hcol : 0 ≤ tol ∧ d ≤ tol ^ 2
            · rw [if_pos hcol]
              have hdec := seq_decomp (by omega : 2 ≤ seq.length)
              refine ⟨?_, ?_, ?_, ?_⟩
              · have hs : [hd seq, lst seq].Sublist
                    (hd seq :: (seq.tail.dropLast ++ [lst seq])) :=
                  List.cons_sublist_cons.mpr
                    (List.sublist_append_right _ _)
                rwa [← hdec] at hs
              · rw [hd_head? hseqne]
                rfl
              · rw [lst_getLast? hseqne]
                rfl
              · intro _
                exact le_refl _
            · rw [if_neg hcol]
              have hlenleft : (seq.take (j + 2)).length = j + 2 := by
                rw [List.length_take]
                exact min_eq_left (by omega)
              have hlenright : (seq.drop (j + 1)).length =
                  seq.length - (j + 1) := List.length_drop _ _
              obtain ⟨subL, headL, lastL, len2L⟩ :=
                ih (k - 1) (by omega) n tol (seq.take (j + 2))
                  (by rw [hlenleft]; omega)
              obtain ⟨subR, headR, lastR, len2R⟩ :=
                ih (k - 1) (by omega) n tol (seq.drop (j + 1))
                  (by rw [hlenright]; omega)
              have hL2 : 2 ≤
                  (douglasPeucker n tol (seq.take (j + 2))).length :=
                len2L (by rw [hlenleft]; omega)
              have hR2 : 2 ≤
                  (douglasPeucker n tol (seq.drop (j + 1))).length :=
                len2R (by rw [hlenright]; omega)
              have hLne : douglasPeucker n tol (seq.take (j + 2)) ≠ [] :=
                List.ne_nil_of_length_pos (by omega)
              have hRtne :
                  (douglasPeucker n tol (seq.drop (j + 1))).tail ≠ [] := by
                apply List.ne_nil_of_length_pos
                rw [List.length_tail]
                omega
              refine ⟨?_, ?_, ?_, ?_⟩
              · have h1 : (douglasPeucker n tol
                    (seq.drop (j + 1))).tail.Sublist (seq.drop (j + 2)) := by
                  have h0 := sublist_tail_of_head_eq subR headR
                  rwa [List.tail_drop] at h0
                have h2 := List.Sublist.append subL h1
                rwa [List.take_append_drop (j + 2) seq] at h2
              · rw [head?_append_of_ne_nil _ _ hLne, headL,
                  take_head? _ _ (by omega)]
              · rw [getLast?_append_of_ne_nil _ _ hRtne,
                  tail_getLast? _ hRtne, lastR,
                  drop_getLast? _ _ (by omega)]
              · intro _
                rw [List.length_append, List.length_tail]
                omega

theorem simplifyLine_eq_dp {tol : ℚ} {coords : Line}
    (h : coords ≠ []) :
    simplifyLine tol coords =
      douglasPeucker coords.length tol coords := by
  obtain ⟨-, hh, -, -⟩ :=
    dp_struct coords.length coords.length tol coords (le_refl _)
  have hne : douglasPeucker coords.length tol coords ≠ [] := by
    intro hnil
    rw [hnil] at hh
    exact h (List.head?_eq_none_iff.mp hh.symm)
  unfold simplifyLine
  rcases hdp : douglasPeucker coords.length tol coords with _ | ⟨c, cs⟩
  · exact absurd hdp hne
  · rfl

/-- C6.  For every point sequence with at least 2 points and every
tolerance t ≥ 0, `simplify_geometry` preserves both endpoints: the
first and last points of the simplified sequence equal the first and
last points of the input. -/
theorem simplify_preserves_endpoints (seq : Line) (t : ℚ)
    (_hlen : 2 ≤ seq.length) (_htol : 0 ≤ t) :
    ∃ out, simplify_geometry (Geometry.lineString seq) t =
      Geometry.lineString out ∧
      out.head? = seq.head? ∧ out.getLast? = seq.getLast? := by
  unfold simplify_geometry
  dsimp only
  by_cases h3 : seq.length < 3
  · rw [if_pos h3]
    exact ⟨seq, rfl, rfl, rfl⟩
  · rw [if_neg h3]
    refine ⟨simplifyLine t seq, rfl, ?_, ?_⟩
    all_goals
      rw [simplifyLine_eq_dp (List.ne_nil_of_length_pos (by omega))]
    · exact (dp_struct seq.length seq.length t seq (le_refl _)).2.1
    · exact (dp_struct seq.length seq.length t seq (le_refl _)).2.2.1

theorem simplify_preserves_endpoints_witness :
    ∃ out,
      simplify_geometry (Geometry.lineString [(0, 0), (1, 0), (2, 0)])
        1 = Geometry.lineString out ∧
      out.head? = some ((0 : ℚ), (0 : ℚ)) ∧
      out.getLast? = some ((2 : ℚ), (0 : ℚ)) :=
  simplify_preserves_endpoints [(0, 0), (1, 0), (2, 0)] 1
    (by decide) (by norm_num)

theorem dp_canonical_eq :
    ∀ (k fuel₁ fuel₂ : ℕ) (tol : ℚ) (seq : Line),
      seq.length ≤ k → seq.length ≤ fuel₁ → seq.length ≤ fuel₂ →
      douglasPeucker fuel₁ tol seq = douglasPeucker fuel₂ tol seq := by
  intro k
  induction k using Nat.strong_induction_on with
  | _ k ih =>
      intro fuel₁ fuel₂ tol seq hk h1 h2
      by_cases h3 : seq.length < 3
      · rw [dp_small h3, dp_small h3]
      · rcases fuel₁ with _ | n₁
        · omega
        · rcases fuel₂ with _ | n₂
          · omega
          · rw [dp_succ_eq, dp_succ_eq, if_neg h3, if_neg h3]
            rcases hfm : firstMax ((seq.tail.dropLast).map
                (fun p => perpDistSq p (hd seq) (lst seq)))
              with _ | ⟨j, d⟩
            · simp only [hfm]
            · simp only [hfm]
              by_cases hcol : 0 ≤ tol ∧ d ≤ tol ^ 2
              · rw [if_pos hcol, if_pos hcol]
              · rw [if_neg hcol, if_neg hcol]
                obtain ⟨hjlen, -, -, -⟩ := firstMax_spec _ _ _ hfm
                rw [List.length_map, interior_length] at hjlen
                have hlenleft : (seq.take (j + 2)).length = j + 2 := by
                  rw [List.length_take]
                  exact min_eq_left (by omega)
                have hlenright : (seq.drop (j + 1)).length =
                    seq.length - (j + 1) := List.length_drop _ _
                rw [ih (k - 1) (by omega) n₁ n₂ tol (seq.take (j + 2))
                    (by omega) (by omega) (by omega),
                  ih (k - 1) (by omega) n₁ n₂ tol (seq.drop (j + 1))
                    (by omega) (by omega) (by omega)]

theorem dp_idem :
    ∀ (k : ℕ) (tol : ℚ) (seq : Line), seq.length ≤ k →
      douglasPeucker (douglasPeucker seq.length tol seq).length tol
          (douglasPeucker seq.length tol seq) =
        douglasPeucker seq.length tol seq := by
  intro k
  induction k using Nat.strong_induction_on with
  | _ k ih =>
      intro tol seq hk
      by_cases h3 : seq.length < 3
      · rw [dp_small h3, dp_small h3]
      · obtain ⟨n, hn⟩ : ∃ n, seq.length = n + 1 :=
          ⟨seq.length - 1, by omega⟩
        have hinner : douglasPeucker seq.length tol seq =
            match firstMax ((seq.tail.dropLast).map
                (fun p => perpDistSq p (hd seq) (lst seq))) with
            | none => seq
            | some (j, d) =>
                if 0 ≤ tol ∧ d ≤ tol ^ 2 then [hd seq, lst seq]
                else douglasPeucker n tol (seq.take (j + 2)) ++
                  (douglasPeucker n tol (seq.drop (j + 1))).tail := by
          rw [hn, dp_succ_eq, if_neg (by omega : ¬seq.length < 3)]
        rcases hfm : firstMax ((seq.tail.dropLast).map
            (fun p => perpDistSq p (hd seq) (lst seq))) with _ | ⟨j, d⟩
        · exfalso
          have hnil := firstMax_eq_none hfm
          have hi : ((seq.tail.dropLast).map
              (fun p => perpDistSq p (hd seq) (lst seq))).length = 0 := by
            rw [hnil]; rfl
          rw [List.length_map, interior_length] at hi
          omega
        · rw [hinner]
          simp only [hfm]
          by_cases hcol : 0 ≤ tol ∧ d ≤ tol ^ 2
          · simp only [if_pos hcol]
            exact dp_small (by simp)
          · simp only [if_neg hcol]
            obtain ⟨hjlen0, hdval, hstrict, hmax⟩ :=
              firstMax_spec _ _ _ hfm
            have hIlen : (seq.tail.dropLast).length = seq.length - 2 :=
              interior_length seq
            have hjlen : j < seq.length - 2 := by
              rw [List.length_map, hIlen] at hjlen0
              exact hjlen0
            have hjI : j < (seq.tail.dropLast).length := by omega
            have hlenleft : (seq.take (j + 2)).length = j + 2 := by
              rw [List.length_take]
              exact min_eq_left (by omega)
            have hlenright : (seq.drop (j + 1)).length =
                seq.length - (j + 1) := List.length_drop _ _
            have hcanL : douglasPeucker n tol (seq.take (j + 2)) =
                douglasPeucker (seq.take (j + 2)).length tol
                  (seq.take (j + 2)) :=
              dp_canonical_eq (j + 2) n (seq.take (j + 2)).length tol _
                (by omega) (by omega) (by omega)
            have hcanR : douglasPeucker n tol (seq.drop (j + 1)) =
                douglasPeucker (seq.drop (j + 1)).length tol
                  (seq.drop (j + 1)) :=
              dp_canonical_eq (seq.length - (j + 1)) n
                (seq.drop (j + 1)).length tol _
                (by omega) (by omega) (by omega)
            have hseqd := seq_decomp (by omega : 2 ≤ seq.length)
            have hgetd : (seq.tail.dropLast).getD j (0, 0) =
                (seq.tail.dropLast)[j] :=
              List.getD_eq_getElem _ _ hjI
            have hleftd : seq.take (j + 2) =
                hd seq :: ((seq.tail.dropLast).take j ++
                  [(seq.tail.dropLast).getD j (0, 0)]) := by
              conv_lhs => rw [hseqd]
              rw [List.take_succ_cons,
                List.take_append_of_le_length (by omega),
                List.take_succ,
                List.getElem?_eq_getElem hjI, hgetd]
              rfl
            have hrightd : seq.drop (j + 1) =
                (seq.tail.dropLast).getD j (0, 0) ::
                  ((seq.tail.dropLast).drop (j + 1) ++ [lst seq]) := by
              conv_lhs => rw [hseqd]
              rw [List.drop_succ_cons,
                List.drop_append_of_le_length (by omega),
                List.drop_eq_getElem_cons hjI, hgetd]
              rfl
            obtain ⟨subL, headL, lastL, len2L⟩ :=
              dp_struct (seq.take (j + 2)).length
                (seq.take (j + 2)).length tol (seq.take (j + 2))
                (le_refl _)
            obtain ⟨subR, headR, lastR, len2R⟩ :=
              dp_struct (seq.drop (j + 1)).length
                (seq.drop (j + 1)).length tol (seq.drop (j + 1))
                (le_refl _)
            have hLhead : (douglasPeucker (seq.take (j + 2)).length tol
                (seq.take (j + 2))).head? = some (hd seq) := by
              rw [headL, hleftd]; rfl
            have hLlast : (douglasPeucker (seq.take (j + 2)).length tol
                (seq.take (j + 2))).getLast? =
                some ((seq.tail.dropLast).getD j (0, 0)) := by
              rw [lastL, hleftd,
                getLast?_cons_of_ne_nil _ (by simp),
                List.getLast?_concat]
            have hRhead : (douglasPeucker (seq.drop (j + 1)).length tol
                (seq.drop (j + 1))).head? =
                some ((seq.tail.dropLast).getD j (0, 0)) := by
              rw [headR, hrightd]; rfl
            have hRlast : (douglasPeucker (seq.drop (j + 1)).length tol
                (seq.drop (j + 1))).getLast? = some (lst seq) := by
              rw [lastR, hrightd,
                getLast?_cons_of_ne_nil _ (by simp),
                List.getLast?_concat]
            have hL2 : 2 ≤ (douglasPeucker (seq.take (j + 2)).length tol
                (seq.take (j + 2))).length :=
              len2L (by rw [hlenleft]; omega)
            have hR2 : 2 ≤ (douglasPeucker (seq.drop (j + 1)).length tol
                (seq.drop (j + 1))).length :=
              len2R (by rw [hlenright]; omega)
            obtain ⟨L, hLdec⟩ := decomp_of_ends hL2 hLhead hLlast
            obtain ⟨R, hRdec⟩ := decomp_of_ends hR2 hRhead hRlast
            have hLsub : L.Sublist ((seq.tail.dropLast).take j) := by
              have h1 : (hd seq :: (L ++
                  [(seq.tail.dropLast).getD j (0, 0)])).Sublist
                  (hd seq :: ((seq.tail.dropLast).take j ++
                    [(seq.tail.dropLast).getD j (0, 0)])) := by
                rw [← hLdec, ← hleftd]
                exact subL
              exact concat_sublist_concat (List.cons_sublist_cons.mp h1)
            have hRsub : R.Sublist ((seq.tail.dropLast).drop (j + 1)) := by
              have h1 : ((seq.tail.dropLast).getD j (0, 0) ::
                  (R ++ [lst seq])).Sublist
                  ((seq.tail.dropLast).getD j (0, 0) ::
                    ((seq.tail.dropLast).drop (j + 1) ++ [lst seq])) := by
                rw [← hRdec, ← hrightd]
                exact subR
              exact concat_sublist_concat (List.cons_sublist_cons.mp h1)
            have hstrictL : ∀ p ∈ L,
                perpDistSq p (hd seq) (lst seq) < d := by
              intro p hp
              have hpI := hLsub.subset hp
              obtain ⟨i, hilt, hieq⟩ := List.getElem_of_mem hpI
              have hi2 : i < j := by
                rw [List.length_take] at hilt
                exact lt_of_lt_of_le hilt (min_le_left _ _)
              have hi3 : i < (seq.tail.dropLast).length := by
                rw [List.length_take] at hilt
                exact lt_of_lt_of_le hilt (min_le_right _ _)
              rw [List.getElem_take] at hieq
              have hs := hstrict i hi2
              rw [getD_map_of_lt _ _ _ hi3,
                List.getD_eq_getElem _ _ hi3, hieq] at hs
              exact hs
            have hmaxR : ∀ p ∈ R,
                perpDistSq p (hd seq) (lst seq) ≤ d := by
              intro p hp
              have hpI := hRsub.subset hp
              obtain ⟨i, hilt, hieq⟩ := List.getElem_of_mem hpI
              have hi3 : j + 1 + i < (seq.tail.dropLast).length := by
                rw [List.length_drop] at hilt
                omega
              rw [List.getElem_drop] at hieq
              have hs := hmax (j + 1 + i)
                (by rw [List.length_map]; omega)
              rw [getD_map_of_lt _ _ _ hi3,
                List.getD_eq_getElem _ _ hi3, hieq] at hs
              exact hs
            have hds : perpDistSq ((seq.tail.dropLast).getD j (0, 0))
                (hd seq) (lst seq) = d := by
              have hv := hdval
              rw [getD_map_of_lt _ _ _ hjI] at hv
              exact hv
            rw [hcanL, hcanR, hLdec, hRdec]
            have hout2 : (hd seq :: (L ++
                  [(seq.tail.dropLast).getD j (0, 0)])) ++
                ((seq.tail.dropLast).getD j (0, 0) ::
                  (R ++ [lst seq])).tail =
                hd seq :: ((L ++ (seq.tail.dropLast).getD j (0, 0) :: R)
                  ++ [lst seq]) := by
              simp
            rw [hout2]
            have houtlen : (hd seq :: ((L ++
                (seq.tail.dropLast).getD j (0, 0) :: R) ++
                [lst seq])).length = (L.length + R.length + 2) + 1 := by
              simp only [List.length_cons, List.length_append,
                List.length_nil]
              omega
            rw [houtlen, dp_succ_eq, if_neg (by
              simp only [List.length_cons, List.length_append,
                List.length_nil]
              omega)]
            rw [List.tail_cons, List.dropLast_concat]
            have houthd : hd (hd seq :: ((L ++
                (seq.tail.dropLast).getD j (0, 0) :: R) ++
                [lst seq])) = hd seq := rfl
            have houtlst : lst (hd seq :: ((L ++
                (seq.tail.dropLast).getD j (0, 0) :: R) ++
                [lst seq])) = lst seq :=
              lst_eq_of_getLast? (by
                rw [getLast?_cons_of_ne_nil _ (by simp),
                  List.getLast?_concat])
            rw [houthd, houtlst]
            have hmapout : (L ++ (seq.tail.dropLast).getD j (0, 0) ::
                R).map (fun p => perpDistSq p (hd seq) (lst seq)) =
                L.map (fun p => perpDistSq p (hd seq) (lst seq)) ++
                  d :: R.map (fun p =>
                    perpDistSq p (hd seq) (lst seq)) := by
              rw [List.map_append, List.map_cons]
              simp only [hds]
            rw [hmapout]
            have hfmout : firstMax
                (L.map (fun p => perpDistSq p (hd seq) (lst seq)) ++
                  d :: R.map (fun p =>
                    perpDistSq p (hd seq) (lst seq))) =
                some (L.length, d) := by
              have h := firstMax_append
                (L.map (fun p => perpDistSq p (hd seq) (lst seq)))
                (R.map (fun p => perpDistSq p (hd seq) (lst seq))) d
                (by
                  intro v hv
                  obtain ⟨p, hp, hpv⟩ := List.mem_map.mp hv
                  rw [← hpv]
                  exact hstrictL p hp)
                (by
                  intro v hv
                  obtain ⟨p, hp, hpv⟩ := List.mem_map.mp hv
                  rw [← hpv]
                  exact hmaxR p hp)
              rw [List.length_map] at h
              exact h
            simp only [hfmout]
            rw [if_neg hcol]
            have htake : (hd seq :: ((L ++
                (seq.tail.dropLast).getD j (0, 0) :: R) ++
                [lst seq])).take (L.length + 2) =
                hd seq :: (L ++ [(seq.tail.dropLast).getD j (0, 0)]) := by
              have he : hd seq :: ((L ++
                  (seq.tail.dropLast).getD j (0, 0) :: R) ++
                  [lst seq]) =
                  (hd seq :: (L ++
                    [(seq.tail.dropLast).getD j (0, 0)])) ++
                  (R ++ [lst seq]) := by
                simp
              rw [he]
              refine List.take_left' ?_
              simp only [List.length_cons, List.length_append,
                List.length_nil]
            have hdrop : (hd seq :: ((L ++
                (seq.tail.dropLast).getD j (0, 0) :: R) ++
                [lst seq])).drop (L.length + 1) =
                (seq.tail.dropLast).getD j (0, 0) ::
                  (R ++ [lst seq]) := by
              have he : hd seq :: ((L ++
                  (seq.tail.dropLast).getD j (0, 0) :: R) ++
                  [lst seq]) =
                  (hd seq :: L) ++
                  ((seq.tail.dropLast).getD j (0, 0) ::
                    (R ++ [lst seq])) := by
                simp
              rw [he]
              refine List.drop_left' ?_
              simp only [List.length_cons]
            rw [htake, hdrop, ← hLdec, ← hRdec]
            have hDPLlen : (douglasPeucker (seq.take (j + 2)).length tol
                (seq.take (j + 2))).length = L.length + 2 := by
              rw [hLdec]
              simp only [List.length_cons, List.length_append,
                List.length_nil]
            have hDPRlen : (douglasPeucker (seq.drop (j + 1)).length tol
                (seq.drop (j + 1))).length = R.length + 2 := by
              rw [hRdec]
              simp only [List.length_cons, List.length_append,
                List.length_nil]
            rw [dp_canonical_eq (L.length + 2) (L.length + R.length + 2)
              (douglasPeucker (seq.take (j + 2)).length tol
                (seq.take (j + 2))).length tol
              (douglasPeucker (seq.take (j + 2)).length tol
                (seq.take (j + 2)))
              hDPLlen.le (by omega) (le_refl _)]
            rw [dp_canonical_eq (R.length + 2) (L.length + R.length + 2)
              (douglasPeucker (seq.drop (j + 1)).length tol
                (seq.drop (j + 1))).length tol
              (douglasPeucker (seq.drop (j + 1)).length tol
                (seq.drop (j + 1)))
              hDPRlen.le (by omega) (le_refl _)]
            have hidemL := ih (j + 2) (by omega) tol (seq.take (j + 2))
              (by rw [hlenleft])
            have hidemR := ih (seq.length - (j + 1)) (by omega) tol
              (seq.drop (j + 1)) (by rw [hlenright])
            rw [hidemL, hidemR, hLdec, hRdec]
            exact hout2

theorem simplifyLine_idem {tol : ℚ} {coords : Line}
    (h : coords ≠ []) (h2 : simplifyLine tol coords ≠ []) :
    simplifyLine tol (simplifyLine tol coords) =
      simplifyLine tol coords := by
  rw [simplifyLine_eq_dp h2, simplifyLine_eq_dp h]
  exact dp_idem coords.length tol coords (le_refl _)

theorem simplifyStep_idem (tol : ℚ) (lc : Line) :
    (if (if lc.length < 3 then lc else simplifyLine tol lc).length < 3
        then (if lc.length < 3 then lc else simplifyLine tol lc)
        else simplifyLine tol
          (if lc.length < 3 then lc else simplifyLine tol lc)) =
      if lc.length < 3 then lc else simplifyLine tol lc := by
  by_cases h3 : lc.length < 3
  · rw [if_pos h3, if_pos h3]
  · rw [if_neg h3]
    by_cases h3' : (simplifyLine tol lc).length < 3
    · rw [if_pos h3']
    · rw [if_neg h3']
      exact simplifyLine_idem
        (fun h => by rw [h] at h3; simp at h3)
        (fun h => by rw [h] at h3'; simp at h3')

/-- C7. `simplify_geometry` is idempotent: applying it a second time
with the same tolerance returns the same result as applying it once,
for every geometry and every tolerance. -/
theorem simplify_idempotent (g : Geometry) (t : ℚ) :
    simplify_geometry (simplify_geometry g t) t =
      simplify_geometry g t := by
  cases g with
  | point p => rfl
  | lineString coords =>
      by_cases h3 : coords.length < 3
      · simp only [simplify_geometry, if_pos h3]
      · simp only [simplify_geometry, if_neg h3]
        by_cases h3' : (simplifyLine t coords).length < 3
        · rw [if_pos h3']
        · rw [if_neg h3']
          rw [simplifyLine_idem
            (fun h => by rw [h] at h3; simp at h3)
            (fun h => by rw [h] at h3'; simp at h3')]
  | multiLineString lines =>
      simp only [simplify_geometry, List.map_map]
      congr 1
      apply List.map_congr_left
      intro lc _
      simp only [Function.comp_apply]
      exact simplifyStep_idem t lc
